import Mathlib

/-!
Shallow embedding of the loopback-manager core (internal/manager/manager.go).

Go strings are modelled as `List Char` (`Str`). The in-memory manager state
(`MState`) holds the assignment map (an association list in insertion order,
standing in for the Go map), the persisted ledger file content, and the
per-repository environment files. Every operation below is translated
line-by-line from the Go source.
-/

set_option maxHeartbeats 1000000

abbrev Str := List Char

/-- Go `unicode.IsSpace` restricted to the ASCII range used by this tool. -/
def isSpace (c : Char) : Bool :=
  c = ' ' || c = '\t' || c = '\n' || c = '\r' || c = '\x0b' || c = '\x0c'

/-- Go `strings.TrimSpace`. -/
def trim (s : Str) : Str :=
  ((s.dropWhile isSpace).reverse.dropWhile isSpace).reverse

/-- Go `strings.HasPrefix s pre`. -/
def startsWith (s pre : Str) : Bool :=
  pre.isPrefixOf s

/-- Helper for `fields`: `acc` is the current token, reversed. -/
def fieldsAux : Str → Str → List Str
  | [], acc => if acc = [] then [] else [acc.reverse]
  | c :: rest, acc =>
    if isSpace c then
      if acc = [] then fieldsAux rest [] else acc.reverse :: fieldsAux rest []
    else fieldsAux rest (c :: acc)

/-- Go `strings.Fields`: split around runs of whitespace. -/
def fields (s : Str) : List Str := fieldsAux s []

/-- Go `strings.Split s (String.singleton c)`. Always returns at least one piece. -/
def splitOnChar (c : Char) : Str → List Str
  | [] => [[]]
  | a :: rest =>
    if a = c then [] :: splitOnChar c rest
    else
      match splitOnChar c rest with
      | [] => [[a]]
      | t :: ts => (a :: t) :: ts

/-- Go `strings.Join lines "\n"`. -/
def joinNL : List Str → Str
  | [] => []
  | [l] => l
  | l :: ls => l ++ '\n' :: joinNL ls

/-- Byte-wise lexicographic `≤` on strings, as used by Go `sort.Strings`. -/
def strLe : Str → Str → Bool
  | [], _ => true
  | _ :: _, [] => false
  | a :: s, b :: t => if a = b then strLe s t else a.toNat.blt b.toNat

/-- Insert into a `strLe`-sorted list (model of Go `sort.Strings`). -/
def sortInsert (x : Str) : List Str → List Str
  | [] => [x]
  | y :: ys => if strLe x y then x :: y :: ys else y :: sortInsert x ys

/-- Sorting model for Go `sort.Strings` (a lexicographically sorted permutation). -/
def sortStrs : List Str → List Str
  | [] => []
  | x :: xs => sortInsert x (sortStrs xs)

/-- The decimal digit character for `d < 10`. -/
def digitChar (d : Nat) : Char := Char.ofNat (48 + d)

/-- Fuel-driven decimal rendering of a natural number (Go `fmt.Sprintf "%d"`). -/
def natStrAux : Nat → Nat → Str
  | 0, _ => []
  | f + 1, n =>
    if n < 10 then [digitChar n] else natStrAux f (n / 10) ++ [digitChar (n % 10)]

/-- Decimal rendering of a natural number. -/
def natStr (n : Nat) : Str := natStrAux (n + 1) n

/-- Go `fmt.Sprintf "%d"` on an `int`. -/
def intStr : Int → Str
  | .ofNat n => natStr n
  | .negSucc n => '-' :: natStr (n + 1)

/-- Decimal value of a digit string (used to prove `natStr` injective). -/
def strNatVal (s : Str) : Nat :=
  s.foldl (fun a c => a * 10 + (c.toNat - 48)) 0

/-! ### Data model -/

/-- `config.IPRange`: base prefix plus inclusive suffix range. -/
structure IPRange where
  base : Str
  start : Int
  stop : Int
deriving DecidableEq, Repr

/-- The part of `config.Config` the manager core reads. -/
structure Config where
  baseDir : Str
  ipRange : IPRange
deriving DecidableEq, Repr

/-- Error kinds surfaced by the manager operations (spec §7 taxonomy). -/
inductive MError where
  | invalidIP (ip : Str)
  | conflict (ip owner : Str)
  | notFound (key : Str)
  | exhausted
  | assignFailed (key : Str) (e : MError)
deriving DecidableEq, Repr

/-- Manager state: in-memory map, persisted ledger file, environment files. -/
structure MState where
  assignments : List (Str × Str)
  ledgerFile : Option Str
  envFiles : List (Str × Str)
deriving DecidableEq, Repr

/-- Go map write `m[k] = v` on the association-list model. -/
def mapSet (m : List (Str × Str)) (k v : Str) : List (Str × Str) :=
  if m.any (fun e => e.1 = k) then
    m.map (fun e => if e.1 = k then (k, v) else e)
  else m ++ [(k, v)]

/-- Go map read `m[k]` returning `none` when absent. -/
def lookupAssoc (m : List (Str × Str)) (k : Str) : Option Str :=
  (m.find? (fun e => e.1 = k)).map (fun e => e.2)

/-- The multiset of assigned IP values (Go builds a `map[string]bool` from it). -/
def usedIPsOf (m : List (Str × Str)) : List Str := m.map (fun e => e.2)

/-- `manager.go` lines 371-378: first key owning `ip`, `""` when none. -/
def findRepositoryByIP (m : List (Str × Str)) (ip : Str) : Str :=
  match m.find? (fun e => e.2 = ip) with
  | some e => e.1
  | none => []

/-- One line of `loadAssignments` (lines 54-64): trim, skip blank and `#` lines,
keep lines with exactly three fields as `(org/name, ip)`. -/
def parseLine (line : Str) : Option (Str × Str) :=
  let t := trim line
  if t = [] then none
  else if startsWith t ['#'] then none
  else
    match fields t with
    | [o, n, i] => some (o ++ '/' :: n, i)
    | _ => none

/-- `loadAssignments` on a list of lines. -/
def loadLines (lines : List Str) : List (Str × Str) :=
  lines.foldl
    (fun m l =>
      match parseLine l with
      | some (k, v) => mapSet m k v
      | none => m)
    []

/-- `loadAssignments` on raw file content (split on newlines first). -/
def loadContent (content : Str) : List (Str × Str) :=
  loadLines (splitOnChar '\n' content)

/-- `saveAssignments` line rendering (lines 73-79): keys splitting into exactly
two `/`-parts become `org name ip`; other keys are dropped. -/
def renderEntry (e : Str × Str) : Option Str :=
  match splitOnChar '/' e.1 with
  | [o, n] => some (o ++ ' ' :: n ++ ' ' :: e.2)
  | _ => none

/-- `saveAssignments` (lines 70-85): render, sort, one line per entry. -/
def saveLines (m : List (Str × Str)) : List Str :=
  sortStrs (m.filterMap renderEntry)

/-- The file content written by `saveAssignments` (lines joined with `"\n"`). -/
def saveContent (m : List (Str × Str)) : Str := joinNL (saveLines m)

/-- `fmt.Sprintf "%s.%d" base i`. -/
def fmtIP (base : Str) (i : Int) : Str := base ++ '.' :: intStr i

/-- The suffixes visited by `for i := lo; i <= hi; i++`. -/
def intRange (lo hi : Int) : List Int :=
  (List.range (hi + 1 - lo).toNat).map (fun (k : Nat) => lo + (k : Int))

/-- `isValidIP` (lines 358-369). -/
def isValidIP (cfg : Config) (ip : Str) : Bool :=
  if !startsWith ip (cfg.ipRange.base ++ ['.']) then false
  else (splitOnChar '.' ip).length == 4

/-- `getNextAvailableIP` (lines 342-356): first free suffix in the range,
rendered as an IP; `""` when the range is exhausted. -/
def getNextAvailableIP (cfg : Config) (m : List (Str × Str)) : Str :=
  match (intRange cfg.ipRange.start cfg.ipRange.stop).find?
      (fun i => !(usedIPsOf m).contains (fmtIP cfg.ipRange.base i)) with
  | some i => fmtIP cfg.ipRange.base i
  | none => []

/-- `filepath.Join` on two components. -/
def joinPath (a b : Str) : Str := a ++ '/' :: b

/-- The path of a repository's `.env` file. -/
def envPath (cfg : Config) (org name : Str) : Str :=
  joinPath (joinPath (joinPath cfg.baseDir org) name) ('.' :: ['e', 'n', 'v'])

/-- The `LOOPBACK_IP=` marker checked by `updateEnvFile`. -/
def lbpMarker : Str := ("LOOPBACK_IP=").data

/-- The accumulation loop of `updateEnvFile` (lines 391-398): replace every
line with the marker, keep other lines, but drop empty lines while the
accumulator is still empty. Returns the new lines and the `found` flag. -/
def upsertLoop (ip : Str) : List Str → List Str → Bool → List Str × Bool
  | [], acc, found => (acc, found)
  | l :: ls, acc, found =>
    if startsWith l lbpMarker then
      upsertLoop ip ls (acc ++ [lbpMarker ++ ip]) true
    else if l ≠ [] ∨ acc ≠ [] then
      upsertLoop ip ls (acc ++ [l]) found
    else
      upsertLoop ip ls acc found

/-- `updateEnvFile`'s transformation of existing file content (lines 385-405). -/
def updateEnvContent (content : Str) (ip : Str) : Str :=
  let r := upsertLoop ip (splitOnChar '\n' content) [] false
  let newLines := if r.2 then r.1 else (lbpMarker ++ ip) :: r.1
  joinNL newLines

/-- `updateEnvFile` (lines 380-408) acting on the state's env-file map;
a missing file receives the fresh content `LOOPBACK_IP=<ip>\n`. -/
def updateEnvFile (cfg : Config) (st : MState) (org name ip : Str) : MState :=
  let path := envPath cfg org name
  let newContent :=
    match lookupAssoc st.envFiles path with
    | some content => updateEnvContent content ip
    | none => lbpMarker ++ ip ++ ['\n']
  { st with envFiles := mapSet st.envFiles path newContent }

/-- `saveAssignments`' effect on the state (rewrite the ledger file). -/
def saveState (st : MState) : MState :=
  { st with ledgerFile := some (saveContent st.assignments) }

/-- `Assign` (lines 147-175). Errors leave the state unchanged; on success the
map is updated, the ledger file rewritten, and the env file upserted. -/
def assign (cfg : Config) (st : MState) (org name rip : Str) :
    Option MError × MState :=
  let key := org ++ '/' :: name
  let ip := if rip = [] then getNextAvailableIP cfg st.assignments else rip
  if !isValidIP cfg ip then (some (.invalidIP ip), st)
  else
    let existing := findRepositoryByIP st.assignments ip
    if existing ≠ [] ∧ existing ≠ key then (some (.conflict ip existing), st)
    else
      let st1 := saveState { st with assignments := mapSet st.assignments key ip }
      (none, updateEnvFile cfg st1 org name ip)

/-- The `AutoAssign` loop (lines 215-240). `used0` is the snapshot of used IPs
taken before the loop; it is only extended in dry-run mode, exactly as in the
source. The trace records each (committed or would-be) allocation as
`(org/name, suffix)`. -/
def autoAssignLoop (cfg : Config) :
    List (Str × Str) → List Str → Int → MState → Bool → List (Str × Int) →
    Option MError × MState × List (Str × Int)
  | [], _, _, st, _, tr => (none, st, tr)
  | (org, name) :: rest, used0, nextIP, st, execute, tr =>
    match (intRange nextIP cfg.ipRange.stop).find?
        (fun i => !used0.contains (fmtIP cfg.ipRange.base i)) with
    | none => (some .exhausted, st, tr)
    | some i =>
      let ip := fmtIP cfg.ipRange.base i
      let key := org ++ '/' :: name
      if execute then
        match assign cfg st org name ip with
        | (some e, st') => (some (.assignFailed key e), st', tr)
        | (none, st') =>
          autoAssignLoop cfg rest used0 (i + 1) st' execute (tr ++ [(key, i)])
      else
        autoAssignLoop cfg rest (used0 ++ [ip]) (i + 1) st execute (tr ++ [(key, i)])

/-- `AutoAssign` (lines 194-249) over a given list of unassigned repositories. -/
def autoAssign (cfg : Config) (st : MState) (repos : List (Str × Str))
    (execute : Bool) : Option MError × MState × List (Str × Int) :=
  autoAssignLoop cfg repos (usedIPsOf st.assignments) cfg.ipRange.start st execute []

/-- The pure core of `SyncCheck` (lines 452-487): the reported missing list,
each IP paired with the owner printed for it. -/
def syncMissing (m : List (Str × Str)) (hostIPs : List Str) : List (Str × Str) :=
  let assignedIPs := m.foldl (fun a e => mapSet a e.2 e.1) []
  let missing := (m.filter (fun e => !hostIPs.contains e.2)).map (fun e => e.2)
  (sortStrs missing).map (fun ip => (ip, (lookupAssoc assignedIPs ip).getD []))

/-- Does an operation result carry an `AddressConflict` error? -/
def isConflict : Option MError → Bool
  | some (.conflict _ _) => true
  | _ => false

/-- Well-formedness of a loaded ledger entry: the key splits as `org/name`
with non-empty, whitespace-free, slash-free components whose first character
is not `#`, and the ip is non-empty and whitespace-free. Every entry produced
by loading a well-formed line has this shape. -/
def entryWF (e : Str × Str) : Prop :=
  ∃ o n, e.1 = o ++ '/' :: n ∧ o ≠ [] ∧ n ≠ []
    ∧ (∀ c ∈ o, isSpace c = false) ∧ (∀ c ∈ n, isSpace c = false)
    ∧ '/' ∉ o ∧ '/' ∉ n ∧ o.head? ≠ some '#'
    ∧ e.2 ≠ [] ∧ (∀ c ∈ e.2, isSpace c = false)

/-- Well-formedness of a loaded ledger: duplicate-free keys (a Go map
invariant) and well-formed entries. -/
def mWF (m : List (Str × Str)) : Prop :=
  (m.map Prod.fst).Nodup ∧ ∀ e ∈ m, entryWF e

/-- Well-formedness of one ledger-file line as the amended round-trip claim
requires it: blank, comment, or exactly three fields whose org and name
tokens contain no `/`. -/
def okLineB (l : Str) : Bool :=
  let t := trim l
  if t = [] then true
  else if startsWith t ['#'] then true
  else
    match fields t with
    | [o, n, _] => !o.contains '/' && !n.contains '/'
    | _ => false

/-! ### Lemmas about decimal rendering -/

lemma natStrAux_congr (n : Nat) :
    ∀ f g, n < f → n < g → natStrAux f n = natStrAux g n := by
  induction n using Nat.strong_induction_on with
  | _ n ih =>
    intro f g hf hg
    match f, g, hf, hg with
    | f + 1, g + 1, hf, hg =>
      simp only [natStrAux]
      by_cases h10 : n < 10
      · simp [h10]
      · have hlt : n / 10 < n := Nat.div_lt_self (by omega) (by omega)
        simp only [h10, if_false]
        rw [ih (n / 10) hlt f g (by omega) (by omega)]

lemma natStr_def (n : Nat) :
    natStr n = if n < 10 then [digitChar n] else natStr (n / 10) ++ [digitChar (n % 10)] := by
  by_cases h10 : n < 10
  · simp [natStr, natStrAux, h10]
  · have hlt : n / 10 < n := Nat.div_lt_self (by omega) (by omega)
    simp only [h10, if_false]
    show natStrAux (n + 1) n = _
    simp only [natStrAux, h10, if_false]
    rw [natStrAux_congr (n / 10) n (n / 10 + 1) (by omega) (by omega)]
    rfl

lemma digitChar_toNat {d : Nat} (h : d < 10) : (digitChar d).toNat = 48 + d := by
  interval_cases d <;> rfl

lemma strNatVal_append (s : Str) (c : Char) :
    strNatVal (s ++ [c]) = strNatVal s * 10 + (c.toNat - 48) := by
  unfold strNatVal
  rw [List.foldl_append]
  rfl

lemma strNatVal_natStr (n : Nat) : strNatVal (natStr n) = n := by
  induction n using Nat.strong_induction_on with
  | _ n ih =>
    rw [natStr_def]
    by_cases h10 : n < 10
    · simp only [h10, if_true]
      unfold strNatVal
      simp [List.foldl, digitChar_toNat h10]
    · have hn : 0 < n := by omega
      have hlt : n / 10 < n := Nat.div_lt_self hn (by omega)
      simp only [h10, if_false]
      rw [strNatVal_append, ih (n / 10) hlt, digitChar_toNat (Nat.mod_lt n (by omega))]
      omega

lemma natStr_inj {a b : Nat} (h : natStr a = natStr b) : a = b := by
  have := strNatVal_natStr a
  rw [h, strNatVal_natStr] at this
  omega

lemma intStr_inj_nonneg {i j : Int} (hi : 0 ≤ i) (hj : 0 ≤ j)
    (h : intStr i = intStr j) : i = j := by
  lift i to Nat using hi
  lift j to Nat using hj
  simp only [intStr] at h
  exact_mod_cast congrArg Nat.cast (natStr_inj h)

lemma mem_natStr_digit {c : Char} {n : Nat} (h : c ∈ natStr n) :
    48 ≤ c.toNat ∧ c.toNat ≤ 57 := by
  induction n using Nat.strong_induction_on with
  | _ n ih =>
    rw [natStr_def] at h
    by_cases h10 : n < 10
    · simp only [h10, if_true, List.mem_singleton] at h
      subst h
      rw [digitChar_toNat h10]
      omega
    · have hn : 0 < n := by omega
      have hlt : n / 10 < n := Nat.div_lt_self hn (by omega)
      simp only [h10, if_false, List.mem_append, List.mem_singleton] at h
      rcases h with h | h
      · exact ih (n / 10) hlt h
      · subst h
        rw [digitChar_toNat (Nat.mod_lt n (by omega))]
        omega

lemma dot_not_mem_intStr {i : Int} (hi : 0 ≤ i) : '.' ∉ intStr i := by
  lift i to Nat using hi
  intro h
  have hd := @mem_natStr_digit _ i h
  have h46 : ('.').toNat = 46 := by decide
  omega

lemma fmtIP_ne_nil (base : Str) (i : Int) : fmtIP base i ≠ [] := by
  unfold fmtIP
  cases base <;> simp

lemma fmtIP_inj {base : Str} {i j : Int} (hi : 0 ≤ i) (hj : 0 ≤ j)
    (h : fmtIP base i = fmtIP base j) : i = j := by
  unfold fmtIP at h
  have h2 := List.append_cancel_left h
  injection h2 with hh ht
  exact intStr_inj_nonneg hi hj ht

/-! ### Lemmas about the suffix range and its search -/

lemma intRange_nil {lo hi : Int} (h : hi < lo) : intRange lo hi = [] := by
  unfold intRange
  have h0 : (hi + 1 - lo).toNat = 0 := by omega
  rw [h0]
  rfl

lemma intRange_cons {lo hi : Int} (h : lo ≤ hi) :
    intRange lo hi = lo :: intRange (lo + 1) hi := by
  unfold intRange
  have h1 : (hi + 1 - lo).toNat = (hi + 1 - (lo + 1)).toNat + 1 := by omega
  rw [h1, List.range_succ_eq_map]
  simp only [List.map_cons, List.map_map]
  congr 1
  · omega
  · apply List.map_congr_left
    intro k _
    simp only [Function.comp_apply, Nat.succ_eq_add_one]
    omega

lemma mem_intRange {lo hi i : Int} : i ∈ intRange lo hi ↔ lo ≤ i ∧ i ≤ hi := by
  unfold intRange
  rw [List.mem_map]
  constructor
  · rintro ⟨k, hk, rfl⟩
    rw [List.mem_range] at hk
    omega
  · intro ⟨h1, h2⟩
    refine ⟨(i - lo).toNat, ?_, ?_⟩
    · rw [List.mem_range]
      omega
    · omega

lemma find?_intRange_someAux {p : Int → Bool} :
    ∀ (n : Nat) (lo hi i : Int), (hi + 1 - lo).toNat = n →
      (intRange lo hi).find? p = some i →
      lo ≤ i ∧ i ≤ hi ∧ p i = true ∧ ∀ s, lo ≤ s → s < i → p s = false := by
  intro n
  induction n with
  | zero =>
    intro lo hi i hn h
    rw [intRange_nil (by omega)] at h
    simp at h
  | succ n ih =>
    intro lo hi i hn h
    rw [intRange_cons (by omega), List.find?_cons] at h
    cases hp : p lo with
    | true =>
      rw [hp] at h
      simp only [Option.some.injEq] at h
      subst h
      exact ⟨le_refl _, by omega, hp, fun s h1 h2 => absurd h1 (by omega)⟩
    | false =>
      rw [hp] at h
      have ⟨h1, h2, h3, h4⟩ := ih (lo + 1) hi i (by omega) h
      refine ⟨by omega, h2, h3, ?_⟩
      intro s hs1 hs2
      by_cases hslo : s = lo
      · subst hslo; exact hp
      · exact h4 s (by omega) hs2

lemma find?_intRange_some {p : Int → Bool} {lo hi i : Int}
    (h : (intRange lo hi).find? p = some i) :
    lo ≤ i ∧ i ≤ hi ∧ p i = true ∧ ∀ s, lo ≤ s → s < i → p s = false :=
  find?_intRange_someAux ((hi + 1 - lo).toNat) lo hi i rfl h

lemma find?_intRange_none {p : Int → Bool} {lo hi : Int}
    (h : (intRange lo hi).find? p = none) :
    ∀ s, lo ≤ s → s ≤ hi → p s = false := by
  intro s h1 h2
  have := List.find?_eq_none.mp h s (mem_intRange.mpr ⟨h1, h2⟩)
  simpa using this

lemma find?_intRange_isNone {p : Int → Bool} {lo hi : Int}
    (h : ∀ s, lo ≤ s → s ≤ hi → p s = false) :
    (intRange lo hi).find? p = none := by
  rw [List.find?_eq_none]
  intro i hi2
  have := mem_intRange.mp hi2
  simp [h i this.1 this.2]

/-! ### Lemmas about IP formatting and validity -/

lemma isPrefixOf_append (l m : Str) : l.isPrefixOf (l ++ m) = true := by
  rw [List.isPrefixOf_iff_prefix]
  exact List.prefix_append l m

lemma splitOnChar_ne_nil (c : Char) (s : Str) : splitOnChar c s ≠ [] := by
  cases s with
  | nil => simp [splitOnChar]
  | cons a rest =>
    unfold splitOnChar
    by_cases hac : a = c
    · simp [hac]
    · simp only [hac, if_false]
      cases splitOnChar c rest <;> simp

lemma splitOnChar_length (c : Char) (s : Str) :
    (splitOnChar c s).length = s.count c + 1 := by
  induction s with
  | nil => simp [splitOnChar]
  | cons a rest ih =>
    unfold splitOnChar
    by_cases hac : a = c
    · subst hac
      simp [List.count_cons, ih]
    · simp only [hac, if_false]
      cases hsp : splitOnChar c rest with
      | nil => exact absurd hsp (splitOnChar_ne_nil c rest)
      | cons t ts =>
        rw [hsp] at ih
        simp only [List.length_cons] at ih ⊢
        have hbeq : (a == c) = false := by simp [hac]
        simp [List.count_cons, hbeq]
        omega

lemma isValidIP_fmtIP {cfg : Config} {i : Int} (hb : cfg.ipRange.base.count '.' = 2)
    (hi : 0 ≤ i) : isValidIP cfg (fmtIP cfg.ipRange.base i) = true := by
  unfold isValidIP
  have hpre : startsWith (fmtIP cfg.ipRange.base i) (cfg.ipRange.base ++ ['.']) = true := by
    unfold startsWith fmtIP
    have hsplit : cfg.ipRange.base ++ '.' :: intStr i
        = (cfg.ipRange.base ++ ['.']) ++ intStr i := by simp
    rw [hsplit]
    exact isPrefixOf_append _ _
  rw [hpre]
  simp only [Bool.not_true, Bool.false_eq_true, if_false]
  rw [splitOnChar_length]
  unfold fmtIP
  rw [List.count_append, List.count_cons]
  have hdot : (intStr i).count '.' = 0 :=
    List.count_eq_zero.mpr (dot_not_mem_intStr hi)
  simp [hb, hdot]

/-! ### Lemmas about the assignment map -/

lemma mem_usedIPsOf {m : List (Str × Str)} {e : Str × Str} (h : e ∈ m) :
    e.2 ∈ usedIPsOf m := by
  unfold usedIPsOf
  exact List.mem_map_of_mem _ h

lemma usedIPsOf_mapSet_sub {m : List (Str × Str)} {k v x : Str}
    (h : x ∈ usedIPsOf (mapSet m k v)) : x ∈ usedIPsOf m ∨ x = v := by
  unfold mapSet at h
  by_cases hany : m.any (fun e => e.1 = k) = true
  · rw [if_pos hany] at h
    unfold usedIPsOf at h ⊢
    rw [List.map_map, List.mem_map] at h
    obtain ⟨e, he, hx⟩ := h
    simp only [Function.comp_apply] at hx
    by_cases hek : e.1 = k
    · rw [if_pos hek] at hx
      right
      exact hx.symm
    · rw [if_neg hek] at hx
      left
      exact hx ▸ List.mem_map_of_mem _ he
  · rw [if_neg hany] at h
    unfold usedIPsOf at h ⊢
    rw [List.map_append, List.mem_append] at h
    rcases h with h | h
    · left; exact h
    · right; simpa using h

lemma findRepositoryByIP_eq_nil {m : List (Str × Str)} {ip : Str}
    (h : ip ∉ usedIPsOf m) : findRepositoryByIP m ip = [] := by
  unfold findRepositoryByIP
  have hfind : m.find? (fun e => e.2 = ip) = none := by
    rw [List.find?_eq_none]
    intro e he
    simp only [decide_eq_true_eq]
    intro heq
    exact h (heq ▸ mem_usedIPsOf he)
  rw [hfind]

lemma nodupKeys_entry_eq {m : List (Str × Str)} {e₁ e₂ : Str × Str}
    (hnd : (m.map Prod.fst).Nodup) (h₁ : e₁ ∈ m) (h₂ : e₂ ∈ m)
    (hk : e₁.1 = e₂.1) : e₁ = e₂ := by
  induction m with
  | nil => cases h₁
  | cons a rest ih =>
    rw [List.map_cons, List.nodup_cons] at hnd
    rcases List.mem_cons.mp h₁ with rfl | h₁t
    · rcases List.mem_cons.mp h₂ with rfl | h₂t
      · rfl
      · exact absurd (hk ▸ List.mem_map_of_mem Prod.fst h₂t) hnd.1
    · rcases List.mem_cons.mp h₂ with rfl | h₂t
      · exact absurd (hk ▸ List.mem_map_of_mem Prod.fst h₁t) hnd.1
      · exact ih hnd.2 h₁t h₂t

lemma mapSet_self {m : List (Str × Str)} {k v : Str}
    (hnd : (m.map Prod.fst).Nodup) (hmem : (k, v) ∈ m) : mapSet m k v = m := by
  unfold mapSet
  have hany : m.any (fun e => e.1 = k) = true := by
    rw [List.any_eq_true]
    exact ⟨(k, v), hmem, by simp⟩
  rw [if_pos hany]
  conv_rhs => rw [(List.map_id m).symm]
  apply List.map_congr_left
  intro e he
  by_cases hek : e.1 = k
  · rw [if_pos hek]
    exact nodupKeys_entry_eq hnd hmem he (by simp [hek])
  · rw [if_neg hek]
    rfl

lemma mapSet_keys_replace {m : List (Str × Str)} {k v : Str}
    (hany : m.any (fun e => e.1 = k) = true) :
    (mapSet m k v).map Prod.fst = m.map Prod.fst := by
  unfold mapSet
  rw [if_pos hany, List.map_map]
  apply List.map_congr_left
  intro e _
  by_cases hek : e.1 = k
  · simp [hek]
  · simp [hek]

lemma mapSet_keys_append {m : List (Str × Str)} {k v : Str}
    (hany : ¬ m.any (fun e => e.1 = k) = true) :
    (mapSet m k v).map Prod.fst = m.map Prod.fst ++ [k] := by
  unfold mapSet
  rw [if_neg hany, List.map_append]
  rfl

lemma mapSet_nodupKeys {m : List (Str × Str)} {k v : Str}
    (hnd : (m.map Prod.fst).Nodup) : ((mapSet m k v).map Prod.fst).Nodup := by
  by_cases hany : m.any (fun e => e.1 = k) = true
  · rw [mapSet_keys_replace hany]
    exact hnd
  · rw [mapSet_keys_append hany]
    rw [List.nodup_append]
    refine ⟨hnd, List.nodup_singleton k, ?_⟩
    intro x hx
    simp only [List.mem_singleton]
    intro hxk
    subst hxk
    rw [List.mem_map] at hx
    obtain ⟨e, he, hek⟩ := hx
    rw [List.any_eq_true] at hany
    exact hany ⟨e, he, by simp [hek]⟩

/-! ### Lemmas about the allocator and `assign` -/

lemma getNextAvailableIP_not_used {cfg : Config} {m : List (Str × Str)}
    (h : getNextAvailableIP cfg m ≠ []) :
    getNextAvailableIP cfg m ∉ usedIPsOf m := by
  cases hfind : (intRange cfg.ipRange.start cfg.ipRange.stop).find?
      (fun i => !(usedIPsOf m).contains (fmtIP cfg.ipRange.base i)) with
  | none =>
    exfalso
    apply h
    unfold getNextAvailableIP
    rw [hfind]
  | some i =>
    have hres : getNextAvailableIP cfg m = fmtIP cfg.ipRange.base i := by
      unfold getNextAvailableIP
      rw [hfind]
    rw [hres]
    have hp := List.find?_some hfind
    simp only [Bool.not_eq_true'] at hp
    intro hmem
    have hc : (usedIPsOf m).contains (fmtIP cfg.ipRange.base i) = true :=
      List.elem_iff.mpr hmem
    rw [hc] at hp
    cases hp

lemma findFree_none {cfg : Config} {m : List (Str × Str)}
    (hall : ∀ i ∈ intRange cfg.ipRange.start cfg.ipRange.stop,
      fmtIP cfg.ipRange.base i ∈ usedIPsOf m) :
    (intRange cfg.ipRange.start cfg.ipRange.stop).find?
      (fun i => !(usedIPsOf m).contains (fmtIP cfg.ipRange.base i)) = none := by
  rw [List.find?_eq_none]
  intro i hi
  have hc : (usedIPsOf m).contains (fmtIP cfg.ipRange.base i) = true :=
    List.elem_iff.mpr (hall i hi)
  simp [hc]
  exact hall i hi

lemma isValidIP_nil (cfg : Config) : isValidIP cfg [] = false := by
  unfold isValidIP startsWith
  cases cfg.ipRange.base with
  | nil => rfl
  | cons a s => rfl

/-- Claim C1 (amended): when every suffix in the configured range is already
used, `assign` with an empty requested IP fails with the InvalidAddress error
on the empty string (the allocator's exhaustion sentinel) — not with the
Exhausted error kind — and the state is unchanged. -/
theorem assign_exhausted_invalid (cfg : Config) (st : MState) (org name : Str)
    (hall : ∀ i ∈ intRange cfg.ipRange.start cfg.ipRange.stop,
      fmtIP cfg.ipRange.base i ∈ usedIPsOf st.assignments) :
    assign cfg st org name [] = (some (.invalidIP []), st) := by
  have hnext : getNextAvailableIP cfg st.assignments = [] := by
    unfold getNextAvailableIP
    rw [findFree_none hall]
  unfold assign
  simp only [hnext, isValidIP_nil, if_true, if_pos rfl, Bool.not_false, if_false]

/-- Witness for C1: a concrete exhausted range (start = stop = 10, suffix 10
already assigned) on which the amended theorem applies. -/
theorem assign_exhausted_invalid_witness :
    (∀ i ∈ intRange (10 : Int) 10,
      fmtIP ("127.0.0".data) i ∈ usedIPsOf [(("x/a".data), ("127.0.0.10".data))])
    ∧ assign ⟨("/b".data), ⟨("127.0.0".data), 10, 10⟩⟩
        ⟨[(("x/a".data), ("127.0.0.10".data))], none, []⟩ ("x".data) ("y".data) []
      = (some (.invalidIP []), ⟨[(("x/a".data), ("127.0.0.10".data))], none, []⟩) :=
  ⟨by decide, assign_exhausted_invalid _ _ _ _ (by decide)⟩

/-- Counterexample to claim C1 as stated: on the exhausted range the call
fails with `invalidIP ""`, which is not the Exhausted error kind. -/
theorem claimC1_counterexample :
    (assign ⟨("/b".data), ⟨("127.0.0".data), 10, 10⟩⟩
        ⟨[(("x/a".data), ("127.0.0.10".data))], none, []⟩ ("x".data) ("y".data) []).1
      = some (MError.invalidIP [])
    ∧ some (MError.invalidIP []) ≠ some MError.exhausted := by
  constructor
  · decide
  · decide

/-- Claim C10: when the allocator returns a free IP, the auto-derived
assignment can never fail with AddressConflict: the derived IP is absent from
the assigned-IP set scanned by `findRepositoryByIP`. -/
theorem assign_autoderive_no_conflict (cfg : Config) (st : MState) (org name : Str)
    (h : getNextAvailableIP cfg st.assignments ≠ []) :
    isConflict (assign cfg st org name []).1 = false := by
  have hnu := getNextAvailableIP_not_used h
  have hfr := findRepositoryByIP_eq_nil hnu
  unfold assign
  simp only [if_pos rfl]
  by_cases hv : isValidIP cfg (getNextAvailableIP cfg st.assignments) = true
  · simp [hv, hfr, isConflict]
  · rw [Bool.not_eq_true] at hv
    simp [hv, isConflict]

/-- Witness for C10: a concrete state where the allocator finds a free IP. -/
theorem assign_autoderive_no_conflict_witness :
    getNextAvailableIP ⟨("/b".data), ⟨("127.0.0".data), 10, 12⟩⟩ [] ≠ []
    ∧ isConflict (assign ⟨("/b".data), ⟨("127.0.0".data), 10, 12⟩⟩
        ⟨[], none, []⟩ ("acme".data) ("a".data) []).1 = false :=
  ⟨by decide, assign_autoderive_no_conflict _ _ _ _ (by decide)⟩

/-- Claim C6 (amended): when the non-empty requested IP passes the validity
check and every ledger entry holding that IP has a non-empty key different
from (org, name), `assign` fails with AddressConflict naming an existing
owner of that IP, and the state is unchanged. -/
theorem assign_requested_conflict (cfg : Config) (st : MState) (org name ip : Str)
    (hip : ip ≠ [])
    (hval : isValidIP cfg ip = true)
    (hown : st.assignments.any (fun e => e.2 = ip) = true)
    (hdiff : ∀ e ∈ st.assignments, e.2 = ip → e.1 ≠ org ++ '/' :: name ∧ e.1 ≠ []) :
    assign cfg st org name ip
      = (some (.conflict ip (findRepositoryByIP st.assignments ip)), st)
    ∧ (findRepositoryByIP st.assignments ip, ip) ∈ st.assignments
    ∧ findRepositoryByIP st.assignments ip ≠ org ++ '/' :: name := by
  have hsome : ∃ e, st.assignments.find? (fun e => e.2 = ip) = some e := by
    rw [← Option.isSome_iff_exists]
    rw [List.find?_isSome]
    rw [List.any_eq_true] at hown
    exact hown
  obtain ⟨e, he⟩ := hsome
  have hmem := List.mem_of_find?_eq_some he
  have hpe := List.find?_some he
  simp only [decide_eq_true_eq] at hpe
  have hfr : findRepositoryByIP st.assignments ip = e.1 := by
    unfold findRepositoryByIP
    rw [he]
  have hd := hdiff e hmem hpe
  refine ⟨?_, ?_, ?_⟩
  · simp only [assign, if_neg hip, hval, Bool.not_true, Bool.false_eq_true, if_false, hfr]
    rw [if_pos ⟨hd.2, hd.1⟩]
  · rw [hfr, ← hpe]
    simp only [Prod.mk.eta]
    exact hmem
  · rw [hfr]
    exact hd.1

/-- Witness for C6: the spec scenario — ledger `acme/a → 127.0.0.10`,
`assign("acme","b","127.0.0.10")` fails with AddressConflict naming
`acme/a`, ledger unchanged. -/
theorem assign_requested_conflict_witness :
    (("127.0.0.10").data ≠ []
      ∧ isValidIP ⟨("/b".data), ⟨("127.0.0".data), 10, 254⟩⟩ ("127.0.0.10".data) = true
      ∧ List.any [(("acme/a".data), ("127.0.0.10".data))] (fun e => e.2 = ("127.0.0.10".data)) = true
      ∧ ∀ e ∈ [(("acme/a".data), ("127.0.0.10".data))], e.2 = ("127.0.0.10".data) →
          e.1 ≠ ("acme".data) ++ '/' :: ("b".data) ∧ e.1 ≠ [])
    ∧ (assign ⟨("/b".data), ⟨("127.0.0".data), 10, 254⟩⟩
        ⟨[(("acme/a".data), ("127.0.0.10".data))], none, []⟩ ("acme".data) ("b".data) ("127.0.0.10".data)
      = (some (.conflict ("127.0.0.10".data)
          (findRepositoryByIP [(("acme/a".data), ("127.0.0.10".data))] ("127.0.0.10".data))),
        ⟨[(("acme/a".data), ("127.0.0.10".data))], none, []⟩)
      ∧ (findRepositoryByIP [(("acme/a".data), ("127.0.0.10".data))] ("127.0.0.10".data),
          ("127.0.0.10".data)) ∈ [(("acme/a".data), ("127.0.0.10".data))]
      ∧ findRepositoryByIP [(("acme/a".data), ("127.0.0.10".data))] ("127.0.0.10".data)
          ≠ ("acme".data) ++ '/' :: ("b".data)) :=
  ⟨⟨by decide, by decide, by decide, by decide⟩,
    assign_requested_conflict _ _ _ _ _ (by decide) (by decide) (by decide) (by decide)⟩

/-- Counterexample to claim C6 as stated: (a) a requested IP outside the
configured prefix that is owned by a different key fails with InvalidAddress,
not AddressConflict; (b) with duplicate owners where the caller's own key is
found first, the call succeeds instead of failing with AddressConflict. -/
theorem claimC6_counterexample :
    isConflict (assign ⟨("/b".data), ⟨("127.0.0".data), 10, 254⟩⟩
      ⟨[(("a/b".data), ("zzz".data))], none, []⟩ ("a".data) ("c".data) ("zzz".data)).1 = false
    ∧ isConflict (assign ⟨("/b".data), ⟨("127.0.0".data), 10, 254⟩⟩
      ⟨[(("a/c".data), ("127.0.0.10".data)), (("a/b".data), ("127.0.0.10".data))], none, []⟩
      ("a".data) ("c".data) ("127.0.0.10".data)).1 = false := by
  constructor
  · decide
  · decide

/-- Claim C7 (amended): re-assigning a repository the valid, non-empty IP it
already owns — with no other ledger entry holding that IP and Go-map-like
duplicate-free keys — succeeds without error and leaves the mapping unchanged. -/
theorem assign_idempotent (cfg : Config) (st : MState) (org name ip : Str)
    (hnd : (st.assignments.map Prod.fst).Nodup)
    (hmem : (org ++ '/' :: name, ip) ∈ st.assignments)
    (hip : ip ≠ [])
    (hval : isValidIP cfg ip = true)
    (huniq : ∀ e ∈ st.assignments, e.2 = ip → e.1 = org ++ '/' :: name) :
    (assign cfg st org name ip).1 = none
    ∧ (assign cfg st org name ip).2.assignments = st.assignments := by
  have hsome : ∃ e, st.assignments.find? (fun e => e.2 = ip) = some e := by
    rw [← Option.isSome_iff_exists]
    rw [List.find?_isSome]
    exact ⟨(org ++ '/' :: name, ip), hmem, by simp⟩
  obtain ⟨e, he⟩ := hsome
  have hmem2 := List.mem_of_find?_eq_some he
  have hpe := List.find?_some he
  simp only [decide_eq_true_eq] at hpe
  have hkey := huniq e hmem2 hpe
  have hfr : findRepositoryByIP st.assignments ip = org ++ '/' :: name := by
    unfold findRepositoryByIP
    rw [he]
    exact hkey
  have hms : mapSet st.assignments (org ++ '/' :: name) ip = st.assignments :=
    mapSet_self hnd hmem
  constructor
  · simp only [assign, if_neg hip, hval, Bool.not_true, Bool.false_eq_true, if_false, hfr]
    rw [if_neg (by simp)]
  · simp only [assign, if_neg hip, hval, Bool.not_true, Bool.false_eq_true, if_false, hfr]
    rw [if_neg (by simp)]
    simp [hms, updateEnvFile, saveState]

/-- Witness for C7: re-assigning `acme/a` its own IP `127.0.0.10` succeeds and
changes nothing in the mapping. -/
theorem assign_idempotent_witness :
    (((([(("acme/a".data), ("127.0.0.10".data))] : List (Str × Str)).map Prod.fst).Nodup
      ∧ (("acme".data) ++ '/' :: ("a".data), ("127.0.0.10".data))
          ∈ [(("acme/a".data), ("127.0.0.10".data))]
      ∧ ("127.0.0.10").data ≠ []
      ∧ isValidIP ⟨("/b".data), ⟨("127.0.0".data), 10, 254⟩⟩ ("127.0.0.10".data) = true
      ∧ ∀ e ∈ [(("acme/a".data), ("127.0.0.10".data))], e.2 = ("127.0.0.10".data) →
          e.1 = ("acme".data) ++ '/' :: ("a".data)))
    ∧ (assign ⟨("/b".data), ⟨("127.0.0".data), 10, 254⟩⟩
        ⟨[(("acme/a".data), ("127.0.0.10".data))], none, []⟩
        ("acme".data) ("a".data) ("127.0.0.10".data)).1 = none
    ∧ (assign ⟨("/b".data), ⟨("127.0.0".data), 10, 254⟩⟩
        ⟨[(("acme/a".data), ("127.0.0.10".data))], none, []⟩
        ("acme".data) ("a".data) ("127.0.0.10".data)).2.assignments
      = [(("acme/a".data), ("127.0.0.10".data))] :=
  ⟨⟨by decide, by decide, by decide, by decide, by decide⟩,
    (assign_idempotent _ _ _ _ _ (by decide) (by decide) (by decide) (by decide) (by decide)).1,
    (assign_idempotent _ _ _ _ _ (by decide) (by decide) (by decide) (by decide) (by decide)).2⟩

/-- Counterexample to claim C7 as stated: (a) a repository holding an IP
outside the configured prefix cannot be re-assigned it (InvalidAddress);
(b) with duplicate owners where another key is found first, re-assignment
fails with AddressConflict. In both cases the call does not succeed. -/
theorem claimC7_counterexample :
    (assign ⟨("/b".data), ⟨("127.0.0".data), 10, 254⟩⟩
      ⟨[(("a/b".data), ("zzz".data))], none, []⟩ ("a".data) ("b".data) ("zzz".data)).1 ≠ none
    ∧ (assign ⟨("/b".data), ⟨("127.0.0".data), 10, 254⟩⟩
      ⟨[(("a/x".data), ("127.0.0.10".data)), (("a/b".data), ("127.0.0.10".data))], none, []⟩
      ("a".data) ("b".data) ("127.0.0.10".data)).1 ≠ none := by
  constructor
  · decide
  · decide

/-- Claim C5: `autoAssign(execute=false)` leaves the entire manager state —
the in-memory mapping, the persisted ledger file, and every environment
file — unchanged, for every initial ledger and repository list. -/
theorem autoAssign_dryrun_pure (cfg : Config) (st : MState) (repos : List (Str × Str)) :
    (autoAssign cfg st repos false).2.1 = st := by
  unfold autoAssign
  generalize usedIPsOf st.assignments = used
  generalize cfg.ipRange.start = next
  generalize ([] : List (Str × Int)) = tr
  induction repos generalizing used next tr with
  | nil => rfl
  | cons r rest ih =>
    obtain ⟨org, name⟩ := r
    unfold autoAssignLoop
    cases hfind : (intRange next cfg.ipRange.stop).find?
        (fun i => !used.contains (fmtIP cfg.ipRange.base i)) with
    | none => rfl
    | some i =>
      simp only [Bool.false_eq_true, if_false]
      exact ih (used ++ [fmtIP cfg.ipRange.base i]) (i + 1) _

/-! ### Lemmas about the environment-file upsert -/

lemma joinNL_splitOnChar (s : Str) : joinNL (splitOnChar '\n' s) = s := by
  induction s with
  | nil => rfl
  | cons a rest ih =>
    unfold splitOnChar
    by_cases ha : a = '\n'
    · rw [if_pos ha]
      cases hsp : splitOnChar '\n' rest with
      | nil => exact absurd hsp (splitOnChar_ne_nil _ _)
      | cons t ts =>
        rw [hsp] at ih
        show joinNL ([] :: t :: ts) = a :: rest
        unfold joinNL
        rw [ha, ih]
        rfl
    · rw [if_neg ha]
      cases hsp : splitOnChar '\n' rest with
      | nil => exact absurd hsp (splitOnChar_ne_nil _ _)
      | cons t ts =>
        rw [hsp] at ih
        cases ts with
        | nil =>
          show joinNL [a :: t] = a :: rest
          unfold joinNL at ih ⊢
          rw [← ih]
        | cons t2 ts2 =>
          show joinNL ((a :: t) :: t2 :: ts2) = a :: rest
          unfold joinNL at ih ⊢
          rw [← ih]
          rfl

lemma upsertLoop_acc_ne_nil (ip : Str) :
    ∀ (ls : List Str) (acc : List Str) (found : Bool), acc ≠ [] →
      upsertLoop ip ls acc found
        = (acc ++ ls.map (fun l => if startsWith l lbpMarker then lbpMarker ++ ip else l),
           found || ls.any (fun l => startsWith l lbpMarker)) := by
  intro ls
  induction ls with
  | nil =>
    intro acc found hacc
    simp [upsertLoop]
  | cons l rest ih =>
    intro acc found hacc
    unfold upsertLoop
    by_cases hm : startsWith l lbpMarker = true
    · rw [if_pos hm]
      rw [ih (acc ++ [lbpMarker ++ ip]) true (by simp)]
      simp [hm, List.append_assoc]
    · rw [if_neg (by simp [hm])]
      rw [if_pos (Or.inr hacc)]
      rw [ih (acc ++ [l]) found (by simp)]
      simp [hm, List.append_assoc]

lemma updateEnv_upsert (content ip : Str)
    (h : (splitOnChar '\n' content).head? ≠ some []) :
    updateEnvContent content ip =
      if (splitOnChar '\n' content).any (fun l => startsWith l lbpMarker)
      then joinNL ((splitOnChar '\n' content).map
        (fun l => if startsWith l lbpMarker then lbpMarker ++ ip else l))
      else (lbpMarker ++ ip) ++ '\n' :: content := by
  cases hsp : splitOnChar '\n' content with
  | nil => exact absurd hsp (splitOnChar_ne_nil _ _)
  | cons l0 rest =>
    have hjoin : joinNL (l0 :: rest) = content := by
      rw [← hsp]
      exact joinNL_splitOnChar content
    have hl0 : l0 ≠ [] := by
      rw [hsp] at h
      simpa using h
    unfold updateEnvContent
    rw [hsp]
    unfold upsertLoop
    by_cases hm : startsWith l0 lbpMarker = true
    · rw [if_pos hm]
      simp only [List.nil_append]
      rw [upsertLoop_acc_ne_nil ip rest [lbpMarker ++ ip] true (by simp)]
      simp [hm]
    · rw [if_neg (by simp [hm])]
      rw [if_pos (Or.inl hl0)]
      simp only [List.nil_append]
      rw [upsertLoop_acc_ne_nil ip rest [l0] false (by simp)]
      cases hany : rest.any (fun l => startsWith l lbpMarker) with
      | true => simp [hm, hany]
      | false =>
        have hmap : rest.map (fun l => if startsWith l lbpMarker then lbpMarker ++ ip else l)
            = rest := by
          conv_rhs => rw [← List.map_id rest]
          apply List.map_congr_left
          intro x hx
          have hx2 : ¬ startsWith x lbpMarker = true := by
            intro hc
            have hcon : rest.any (fun l => startsWith l lbpMarker) = true :=
              List.any_eq_true.mpr ⟨x, hx, hc⟩
            rw [hany] at hcon
            cases hcon
          simp [hx2]
        simp [hm, hany, hmap]
        show joinNL ((lbpMarker ++ ip) :: l0 :: rest) = lbpMarker ++ ip ++ '\n' :: content
        unfold joinNL
        rw [hjoin]

/-- Claim C8 (amended): for existing content whose first line is non-empty,
the upsert replaces every line beginning with `LOOPBACK_IP=` in place (which
is first-match replacement whenever at most one line matches) and otherwise
prepends `LOOPBACK_IP=<ip>` above the original content, preserving all other
lines verbatim and in order; in particular
`FOO=bar\nLOOPBACK_IP=127.0.0.5\nBAZ=qux` upserted with `127.0.0.9` yields
`FOO=bar\nLOOPBACK_IP=127.0.0.9\nBAZ=qux`. -/
theorem updateEnvContent_spec :
    (∀ content ip : Str, (splitOnChar '\n' content).head? ≠ some [] →
      updateEnvContent content ip =
        if (splitOnChar '\n' content).any (fun l => startsWith l lbpMarker)
        then joinNL ((splitOnChar '\n' content).map
          (fun l => if startsWith l lbpMarker then lbpMarker ++ ip else l))
        else (lbpMarker ++ ip) ++ '\n' :: content)
    ∧ updateEnvContent ("FOO=bar\nLOOPBACK_IP=127.0.0.5\nBAZ=qux".data) ("127.0.0.9".data)
      = ("FOO=bar\nLOOPBACK_IP=127.0.0.9\nBAZ=qux".data) :=
  ⟨updateEnv_upsert, by decide⟩

/-- Witness for C8: applying the theorem to content with no marker line — the
new line is prepended above the untouched original content. -/
theorem updateEnvContent_spec_witness :
    ((splitOnChar '\n' ("FOO=bar\nBAZ=qux".data)).head? ≠ some [])
    ∧ updateEnvContent ("FOO=bar\nBAZ=qux".data) ("127.0.0.9".data)
      = (if (splitOnChar '\n' ("FOO=bar\nBAZ=qux".data)).any (fun l => startsWith l lbpMarker)
         then joinNL ((splitOnChar '\n' ("FOO=bar\nBAZ=qux".data)).map
           (fun l => if startsWith l lbpMarker then lbpMarker ++ ("127.0.0.9".data) else l))
         else (lbpMarker ++ ("127.0.0.9".data)) ++ '\n' :: ("FOO=bar\nBAZ=qux".data)) :=
  ⟨by decide, updateEnvContent_spec.1 _ _ (by decide)⟩

/-- Counterexample to claim C8 as stated: with two marker lines and a leading
empty line, the upsert replaces BOTH matching lines (not only the first) and
drops the leading empty line, so other lines are not preserved verbatim. -/
theorem claimC8_counterexample :
    updateEnvContent ("\nLOOPBACK_IP=1\nLOOPBACK_IP=2".data) ("9".data)
      = ("LOOPBACK_IP=9\nLOOPBACK_IP=9".data)
    ∧ ("LOOPBACK_IP=9\nLOOPBACK_IP=9".data) ≠ ("\nLOOPBACK_IP=9\nLOOPBACK_IP=2".data) := by
  constructor
  · decide
  · decide

/-! ### Lemmas about sorting, lookups, and the sync-check -/

lemma sortInsert_perm (x : Str) (l : List Str) : List.Perm (sortInsert x l) (x :: l) := by
  induction l with
  | nil => exact List.Perm.refl _
  | cons y ys ih =>
    unfold sortInsert
    by_cases hle : strLe x y = true
    · rw [if_pos hle]
    · rw [if_neg hle]
      exact List.Perm.trans (List.Perm.cons y ih) (List.Perm.swap x y ys)

lemma sortStrs_perm (l : List Str) : List.Perm (sortStrs l) l := by
  induction l with
  | nil => exact List.Perm.refl _
  | cons x xs ih =>
    unfold sortStrs
    exact List.Perm.trans (sortInsert_perm _ _) (List.Perm.cons x ih)

lemma filter_map_snd (m : List (Str × Str)) (p : Str → Bool) :
    (m.filter (fun e => p e.2)).map (fun e => e.2) = (m.map (fun e => e.2)).filter p := by
  induction m with
  | nil => rfl
  | cons e rest ih =>
    simp only [List.filter_cons, List.map_cons]
    by_cases hp : p e.2 = true
    · rw [if_pos hp, if_pos hp, List.map_cons, ih]
    · rw [if_neg hp, if_neg hp, ih]

lemma lookupAssoc_mapSet_self (a : List (Str × Str)) (k v : Str) :
    lookupAssoc (mapSet a k v) k = some v := by
  unfold mapSet
  by_cases hany : a.any (fun e => e.1 = k) = true
  · rw [if_pos hany]
    induction a with
    | nil => cases hany
    | cons e rest ih =>
      by_cases hek : e.1 = k
      · unfold lookupAssoc
        simp [hek]
      · have hrest : rest.any (fun e => e.1 = k) = true := by
          simpa [List.any_cons, hek] using hany
        unfold lookupAssoc
        rw [List.map_cons, if_neg hek, List.find?_cons]
        have hd : (decide (e.1 = k)) = false := by simp [hek]
        rw [hd]
        exact ih hrest
  · rw [if_neg hany]
    induction a with
    | nil =>
      unfold lookupAssoc
      simp
    | cons e rest ih =>
      have hek : ¬ e.1 = k := by
        intro hc
        exact hany (List.any_eq_true.mpr ⟨e, List.mem_cons_self e rest, by simp [hc]⟩)
      have hrest : ¬ rest.any (fun e => e.1 = k) = true := by
        intro hc
        rw [List.any_eq_true] at hc
        obtain ⟨x, hx, hpx⟩ := hc
        exact hany (List.any_eq_true.mpr ⟨x, List.mem_cons_of_mem e hx, hpx⟩)
      unfold lookupAssoc
      rw [List.cons_append, List.find?_cons]
      have hd : (decide (e.1 = k)) = false := by simp [hek]
      rw [hd]
      exact ih hrest

lemma lookupAssoc_cons (e : Str × Str) (rest : List (Str × Str)) (k' : Str) :
    lookupAssoc (e :: rest) k' = if e.1 = k' then some e.2 else lookupAssoc rest k' := by
  unfold lookupAssoc
  rw [List.find?_cons]
  by_cases hek : e.1 = k'
  · simp [hek]
  · simp [hek]

lemma lookupAssoc_map_replace {k v k' r : Str} :
    ∀ a : List (Str × Str),
      lookupAssoc (a.map (fun e => if e.1 = k then (k, v) else e)) k' = some r →
      (k' = k ∧ r = v) ∨ lookupAssoc a k' = some r := by
  intro a
  induction a with
  | nil => intro h; cases h
  | cons e rest ih =>
    intro h
    rw [List.map_cons, lookupAssoc_cons] at h
    rw [lookupAssoc_cons]
    by_cases hek : e.1 = k
    · rw [if_pos hek] at h
      by_cases hkk : (k, v).1 = k'
      · rw [if_pos hkk] at h
        simp only [Option.some.injEq] at h
        exact Or.inl ⟨hkk.symm, h.symm⟩
      · rw [if_neg hkk] at h
        rcases ih h with h1 | h1
        · exact Or.inl h1
        · right
          rw [if_neg (by rw [hek]; exact hkk)]
          exact h1
    · rw [if_neg hek] at h
      by_cases hek' : e.1 = k'
      · rw [if_pos hek'] at h
        right
        rw [if_pos hek']
        exact h
      · rw [if_neg hek'] at h
        rcases ih h with h1 | h1
        · exact Or.inl h1
        · right
          rw [if_neg hek']
          exact h1

lemma lookupAssoc_append_single {k v k' r : Str} :
    ∀ a : List (Str × Str), lookupAssoc (a ++ [(k, v)]) k' = some r →
      (k' = k ∧ r = v) ∨ lookupAssoc a k' = some r := by
  intro a
  induction a with
  | nil =>
    intro h
    rw [List.nil_append, lookupAssoc_cons] at h
    by_cases hkk : (k, v).1 = k'
    · rw [if_pos hkk] at h
      simp only [Option.some.injEq] at h
      exact Or.inl ⟨hkk.symm, h.symm⟩
    · rw [if_neg hkk] at h
      cases h
  | cons e rest ih =>
    intro h
    rw [List.cons_append, lookupAssoc_cons] at h
    rw [lookupAssoc_cons]
    by_cases hek' : e.1 = k'
    · rw [if_pos hek'] at h
      right
      rw [if_pos hek']
      exact h
    · rw [if_neg hek'] at h
      rcases ih h with h1 | h1
      · exact Or.inl h1
      · right
        rw [if_neg hek']
        exact h1

lemma lookupAssoc_mapSet_some {a : List (Str × Str)} {k v k' r : Str}
    (h : lookupAssoc (mapSet a k v) k' = some r) :
    (k' = k ∧ r = v) ∨ lookupAssoc a k' = some r := by
  unfold mapSet at h
  by_cases hany : a.any (fun e => e.1 = k) = true
  · rw [if_pos hany] at h
    exact lookupAssoc_map_replace a h
  · rw [if_neg hany] at h
    exact lookupAssoc_append_single a h

lemma lookupAssoc_mapSet_other {a : List (Str × Str)} {k v k' : Str} (hkk : ¬ k' = k) :
    lookupAssoc (mapSet a k v) k' = lookupAssoc a k' := by
  unfold mapSet
  by_cases hany : a.any (fun e => e.1 = k) = true
  · rw [if_pos hany]
    clear hany
    induction a with
    | nil => rfl
    | cons e rest ih =>
      rw [List.map_cons, lookupAssoc_cons, lookupAssoc_cons]
      by_cases hek : e.1 = k
      · rw [if_pos hek]
        rw [if_neg (fun hc => hkk hc.symm)]
        rw [if_neg (fun hc => hkk (by rw [← hc, hek]))]
        exact ih
      · rw [if_neg hek]
        by_cases hek' : e.1 = k'
        · simp only [if_pos hek']
        · simp only [if_neg hek']
          exact ih
  · rw [if_neg hany]
    clear hany
    induction a with
    | nil =>
      rw [List.nil_append, lookupAssoc_cons]
      rw [if_neg (fun hc => hkk hc.symm)]
    | cons e rest ih =>
      rw [List.cons_append, lookupAssoc_cons, lookupAssoc_cons]
      by_cases hek' : e.1 = k'
      · simp only [if_pos hek']
      · simp only [if_neg hek']
        exact ih

lemma foldl_ipOwner (m : List (Str × Str)) :
    ∀ (acc : List (Str × Str)) (ip r : Str),
      lookupAssoc (m.foldl (fun a e => mapSet a e.2 e.1) acc) ip = some r →
      lookupAssoc acc ip = some r ∨ (r, ip) ∈ m := by
  induction m with
  | nil =>
    intro acc ip r h
    exact Or.inl h
  | cons e rest ih =>
    intro acc ip r h
    rw [List.foldl_cons] at h
    rcases ih _ _ _ h with h1 | h1
    · rcases lookupAssoc_mapSet_some h1 with ⟨hk, hv⟩ | h2
      · right
        subst hk
        subst hv
        simp only [Prod.mk.eta]
        exact List.mem_cons_self e rest
      · exact Or.inl h2
    · exact Or.inr (List.mem_cons_of_mem e h1)

lemma foldl_ipOwner_isSome (m : List (Str × Str)) :
    ∀ (acc : List (Str × Str)) (ip : Str),
      (ip ∈ m.map (fun e => e.2) ∨ (lookupAssoc acc ip).isSome = true) →
      (lookupAssoc (m.foldl (fun a e => mapSet a e.2 e.1) acc) ip).isSome = true := by
  induction m with
  | nil =>
    intro acc ip h
    rcases h with h | h
    · cases h
    · exact h
  | cons e rest ih =>
    intro acc ip h
    rw [List.foldl_cons]
    rcases h with h | h
    · rw [List.map_cons, List.mem_cons] at h
      rcases h with h | h
      · apply ih
        right
        rw [h, lookupAssoc_mapSet_self]
        rfl
      · exact ih _ _ (Or.inl h)
    · apply ih
      right
      by_cases hik : ip = e.2
      · rw [hik, lookupAssoc_mapSet_self]
        rfl
      · rw [lookupAssoc_mapSet_other hik]
        exact h

/-- Claim C9 (amended): for every ledger in which no two entries share an IP
and every host-reported address list, the reconciliation's missing list is the
sorted list of ledger IP values absent from the host set — hence distinct —
each annotated with its owning repository key. -/
theorem syncMissing_spec (m : List (Str × Str)) (hostIPs : List Str)
    (hnd : (m.map (fun e => e.2)).Nodup) :
    (syncMissing m hostIPs).map Prod.fst
      = sortStrs ((m.map (fun e => e.2)).filter (fun ip => !hostIPs.contains ip))
    ∧ ((syncMissing m hostIPs).map Prod.fst).Nodup
    ∧ ∀ p ∈ syncMissing m hostIPs, (p.2, p.1) ∈ m := by
  have hmiss : (m.filter (fun e => !hostIPs.contains e.2)).map (fun e => e.2)
      = (m.map (fun e => e.2)).filter (fun ip => !hostIPs.contains ip) :=
    filter_map_snd m (fun ip => !hostIPs.contains ip)
  have hfst : (syncMissing m hostIPs).map Prod.fst
      = sortStrs ((m.map (fun e => e.2)).filter (fun ip => !hostIPs.contains ip)) := by
    unfold syncMissing
    simp only [List.map_map]
    rw [hmiss]
    conv_rhs =>
      rw [← List.map_id (sortStrs ((m.map (fun e => e.2)).filter
        (fun ip => !hostIPs.contains ip)))]
    apply List.map_congr_left
    intro x hx
    rfl
  refine ⟨hfst, ?_, ?_⟩
  · rw [hfst]
    have hfil : ((m.map (fun e => e.2)).filter (fun ip => !hostIPs.contains ip)).Nodup :=
      List.Nodup.filter _ hnd
    exact ((sortStrs_perm _).symm).nodup hfil
  · intro p hp
    unfold syncMissing at hp
    rw [List.mem_map] at hp
    obtain ⟨ip, hip, hpair⟩ := hp
    have hip2 : ip ∈ (m.filter (fun e => !hostIPs.contains e.2)).map (fun e => e.2) :=
      (sortStrs_perm _).mem_iff.mp hip
    have hip3 : ip ∈ m.map (fun e => e.2) := by
      rw [hmiss] at hip2
      exact List.mem_of_mem_filter hip2
    have hsome := foldl_ipOwner_isSome m [] ip (Or.inl hip3)
    obtain ⟨r, hr⟩ := Option.isSome_iff_exists.mp hsome
    rcases foldl_ipOwner m [] ip r hr with h1 | h1
    · cases h1
    · rw [← hpair]
      simp only [hr, Option.getD_some]
      exact h1

/-- Witness for C9: the spec scenario — ledger `{p1: 127.0.0.11, p2: 127.0.0.12}`
and host set `{127.0.0.11}` report exactly one missing entry, `127.0.0.12`
owned by `p2`. -/
theorem syncMissing_spec_witness :
    ((([(("p1".data), ("127.0.0.11".data)), (("p2".data), ("127.0.0.12".data))] :
        List (Str × Str)).map (fun e => e.2)).Nodup)
    ∧ (∀ p ∈ syncMissing [(("p1".data), ("127.0.0.11".data)), (("p2".data), ("127.0.0.12".data))]
          [("127.0.0.11".data)],
        (p.2, p.1) ∈ [(("p1".data), ("127.0.0.11".data)), (("p2".data), ("127.0.0.12".data))])
    ∧ syncMissing [(("p1".data), ("127.0.0.11".data)), (("p2".data), ("127.0.0.12".data))]
        [("127.0.0.11".data)]
      = [(("127.0.0.12".data), ("p2".data))] :=
  ⟨by decide, (syncMissing_spec _ _ (by decide)).2.2, by decide⟩

/-- Counterexample to claim C9 as stated: with a duplicated ledger IP the
missing list reports the same IP once per owning entry, so it is not a list
of distinct IP values. -/
theorem claimC9_counterexample :
    (syncMissing [(("p".data), ("9".data)), (("q".data), ("9".data))] []).map Prod.fst
      = [("9".data), ("9".data)]
    ∧ ¬ ((syncMissing [(("p".data), ("9".data)), (("q".data), ("9".data))] []).map
        Prod.fst).Nodup := by
  constructor
  · decide
  · decide

/-! ### Step equations and properties of the AutoAssign loop -/

lemma autoAssignLoop_nil (cfg : Config) (used0 : List Str) (nextIP : Int) (st : MState)
    (ex : Bool) (tr : List (Str × Int)) :
    autoAssignLoop cfg [] used0 nextIP st ex tr = (none, st, tr) := rfl

lemma autoAssignLoop_cons_none {cfg : Config} {org name : Str} {rest : List (Str × Str)}
    {used0 : List Str} {nextIP : Int} {st : MState} {ex : Bool} {tr : List (Str × Int)}
    (hfind : (intRange nextIP cfg.ipRange.stop).find?
        (fun i => !used0.contains (fmtIP cfg.ipRange.base i)) = none) :
    autoAssignLoop cfg ((org, name) :: rest) used0 nextIP st ex tr
      = (some .exhausted, st, tr) := by
  unfold autoAssignLoop
  rw [hfind]

lemma autoAssignLoop_cons_exec_ok {cfg : Config} {org name : Str} {rest : List (Str × Str)}
    {used0 : List Str} {nextIP : Int} {st st' : MState} {tr : List (Str × Int)} {i : Int}
    (hfind : (intRange nextIP cfg.ipRange.stop).find?
        (fun i => !used0.contains (fmtIP cfg.ipRange.base i)) = some i)
    (hassign : assign cfg st org name (fmtIP cfg.ipRange.base i) = (none, st')) :
    autoAssignLoop cfg ((org, name) :: rest) used0 nextIP st true tr
      = autoAssignLoop cfg rest used0 (i + 1) st' true (tr ++ [(org ++ '/' :: name, i)]) := by
  conv_lhs => unfold autoAssignLoop
  rw [hfind]
  simp [hassign]

lemma autoAssignLoop_cons_exec_err {cfg : Config} {org name : Str} {rest : List (Str × Str)}
    {used0 : List Str} {nextIP : Int} {st st' : MState} {tr : List (Str × Int)} {i : Int}
    {err : MError}
    (hfind : (intRange nextIP cfg.ipRange.stop).find?
        (fun i => !used0.contains (fmtIP cfg.ipRange.base i)) = some i)
    (hassign : assign cfg st org name (fmtIP cfg.ipRange.base i) = (some err, st')) :
    autoAssignLoop cfg ((org, name) :: rest) used0 nextIP st true tr
      = (some (.assignFailed (org ++ '/' :: name) err), st', tr) := by
  unfold autoAssignLoop
  rw [hfind]
  simp [hassign]

lemma autoAssignLoop_cons_dry {cfg : Config} {org name : Str} {rest : List (Str × Str)}
    {used0 : List Str} {nextIP : Int} {st : MState} {tr : List (Str × Int)} {i : Int}
    (hfind : (intRange nextIP cfg.ipRange.stop).find?
        (fun i => !used0.contains (fmtIP cfg.ipRange.base i)) = some i) :
    autoAssignLoop cfg ((org, name) :: rest) used0 nextIP st false tr
      = autoAssignLoop cfg rest (used0 ++ [fmtIP cfg.ipRange.base i]) (i + 1) st false
          (tr ++ [(org ++ '/' :: name, i)]) := by
  conv_lhs => unfold autoAssignLoop
  rw [hfind]
  simp

lemma autoAssignLoop_trace_append (cfg : Config) :
    ∀ (repos : List (Str × Str)) (used0 : List Str) (nextIP : Int) (st : MState)
      (ex : Bool) (tr : List (Str × Int)),
      autoAssignLoop cfg repos used0 nextIP st ex tr
        = ((autoAssignLoop cfg repos used0 nextIP st ex []).1,
           (autoAssignLoop cfg repos used0 nextIP st ex []).2.1,
           tr ++ (autoAssignLoop cfg repos used0 nextIP st ex []).2.2) := by
  intro repos
  induction repos with
  | nil =>
    intro used0 nextIP st ex tr
    rw [autoAssignLoop_nil, autoAssignLoop_nil]
    simp
  | cons r rest ih =>
    intro used0 nextIP st ex tr
    obtain ⟨org, name⟩ := r
    cases hfind : (intRange nextIP cfg.ipRange.stop).find?
        (fun i => !used0.contains (fmtIP cfg.ipRange.base i)) with
    | none =>
      rw [autoAssignLoop_cons_none hfind, autoAssignLoop_cons_none hfind]
      simp
    | some i =>
      cases ex with
      | true =>
        cases hassign : assign cfg st org name (fmtIP cfg.ipRange.base i) with
        | mk e st' =>
          cases e with
          | some err =>
            rw [autoAssignLoop_cons_exec_err hfind hassign,
                autoAssignLoop_cons_exec_err hfind hassign]
            simp
          | none =>
            rw [autoAssignLoop_cons_exec_ok hfind hassign,
                autoAssignLoop_cons_exec_ok hfind hassign,
                ih used0 (i + 1) st' true (tr ++ [(org ++ '/' :: name, i)]),
                ih used0 (i + 1) st' true ([] ++ [(org ++ '/' :: name, i)])]
            simp
      | false =>
        rw [autoAssignLoop_cons_dry hfind, autoAssignLoop_cons_dry hfind,
            ih (used0 ++ [fmtIP cfg.ipRange.base i]) (i + 1) st false
              (tr ++ [(org ++ '/' :: name, i)]),
            ih (used0 ++ [fmtIP cfg.ipRange.base i]) (i + 1) st false
              ([] ++ [(org ++ '/' :: name, i)])]
        simp

lemma assign_free_ip (cfg : Config) (st : MState) (org name : Str) {i : Int}
    (hbase : cfg.ipRange.base.count '.' = 2) (hi0 : 0 ≤ i)
    (hfree : fmtIP cfg.ipRange.base i ∉ usedIPsOf st.assignments) :
    assign cfg st org name (fmtIP cfg.ipRange.base i)
      = (none, updateEnvFile cfg
          (saveState
            ⟨mapSet st.assignments (org ++ '/' :: name) (fmtIP cfg.ipRange.base i),
             st.ledgerFile, st.envFiles⟩)
          org name (fmtIP cfg.ipRange.base i)) := by
  have hval := @isValidIP_fmtIP cfg i hbase hi0
  have hfr := findRepositoryByIP_eq_nil hfree
  have hne := fmtIP_ne_nil cfg.ipRange.base i
  simp only [assign, if_neg hne, hval, Bool.not_true, Bool.false_eq_true, if_false, hfr]
  rw [if_neg (by simp)]

lemma autoAssignLoop_exec_props (cfg : Config) (hbase : cfg.ipRange.base.count '.' = 2) :
    ∀ (repos : List (Str × Str)) (used0 : List Str) (nextIP : Int) (st : MState),
      0 ≤ nextIP →
      (∀ ip' ∈ usedIPsOf st.assignments,
        ip' ∈ used0 ∨ ∃ j, 0 ≤ j ∧ j < nextIP ∧ ip' = fmtIP cfg.ipRange.base j) →
      (((autoAssignLoop cfg repos used0 nextIP st true []).2.2).map Prod.fst
          = (repos.map (fun r => r.1 ++ '/' :: r.2)).take
              ((autoAssignLoop cfg repos used0 nextIP st true []).2.2).length)
      ∧ List.Chain' (fun a b => a.2 < b.2)
          (autoAssignLoop cfg repos used0 nextIP st true []).2.2
      ∧ (∀ (k : Nat) (kc : Str × Int),
          ((autoAssignLoop cfg repos used0 nextIP st true []).2.2)[k]? = some kc →
          nextIP ≤ kc.2 ∧ kc.2 ≤ cfg.ipRange.stop
          ∧ fmtIP cfg.ipRange.base kc.2 ∉ used0
          ∧ ∀ s, nextIP ≤ s → s < kc.2 →
              fmtIP cfg.ipRange.base s ∈ used0
              ∨ ∃ j, j < k ∧
                  ((autoAssignLoop cfg repos used0 nextIP st true []).2.2)[j]?.map Prod.snd
                    = some s) := by
  intro repos
  induction repos with
  | nil =>
    intro used0 nextIP st hn0 hst
    rw [autoAssignLoop_nil]
    refine ⟨rfl, List.chain'_nil, ?_⟩
    intro k kc hk
    simp at hk
  | cons r rest ih =>
    intro used0 nextIP st hn0 hst
    obtain ⟨org, name⟩ := r
    cases hfind : (intRange nextIP cfg.ipRange.stop).find?
        (fun i => !used0.contains (fmtIP cfg.ipRange.base i)) with
    | none =>
      rw [autoAssignLoop_cons_none hfind]
      refine ⟨rfl, List.chain'_nil, ?_⟩
      intro k kc hk
      simp at hk
    | some i =>
      obtain ⟨hni, his, hpi, hmin⟩ := find?_intRange_some hfind
      have hi0 : 0 ≤ i := le_trans hn0 hni
      have hfreeU : fmtIP cfg.ipRange.base i ∉ used0 := by
        intro hmem
        rw [Bool.not_eq_true'] at hpi
        have hc : used0.contains (fmtIP cfg.ipRange.base i) = true :=
          List.elem_iff.mpr hmem
        rw [hc] at hpi
        cases hpi
      have hminU : ∀ s, nextIP ≤ s → s < i → fmtIP cfg.ipRange.base s ∈ used0 := by
        intro s hs1 hs2
        have := hmin s hs1 hs2
        have h2 : used0.contains (fmtIP cfg.ipRange.base s) = true := by
          cases hc : used0.contains (fmtIP cfg.ipRange.base s) with
          | true => rfl
          | false => rw [hc] at this; cases this
        exact List.elem_iff.mp h2
      have hfree : fmtIP cfg.ipRange.base i ∉ usedIPsOf st.assignments := by
        intro hmem
        rcases hst _ hmem with h1 | ⟨j, hj0, hjlt, hjeq⟩
        · exact hfreeU h1
        · have := fmtIP_inj hi0 hj0 hjeq
          omega
      have hassign := assign_free_ip cfg st org name hbase hi0 hfree
      rw [autoAssignLoop_cons_exec_ok hfind hassign]
      rw [autoAssignLoop_trace_append cfg rest]
      set st' := updateEnvFile cfg
          (saveState
            ⟨mapSet st.assignments (org ++ '/' :: name) (fmtIP cfg.ipRange.base i),
             st.ledgerFile, st.envFiles⟩)
          org name (fmtIP cfg.ipRange.base i) with hst'def
      have hst'assign : st'.assignments
          = mapSet st.assignments (org ++ '/' :: name) (fmtIP cfg.ipRange.base i) := rfl
      have hinv' : ∀ ip' ∈ usedIPsOf st'.assignments,
          ip' ∈ used0 ∨ ∃ j, 0 ≤ j ∧ j < i + 1 ∧ ip' = fmtIP cfg.ipRange.base j := by
        intro ip' hip'
        rw [hst'assign] at hip'
        rcases usedIPsOf_mapSet_sub hip' with h1 | h1
        · rcases hst _ h1 with h2 | ⟨j, hj0, hjlt, hjeq⟩
          · exact Or.inl h2
          · exact Or.inr ⟨j, hj0, by omega, hjeq⟩
        · exact Or.inr ⟨i, hi0, by omega, h1⟩
      obtain ⟨ihk, ihc, ihx⟩ := ih used0 (i + 1) st' (by omega) hinv'
      set T := (autoAssignLoop cfg rest used0 (i + 1) st' true []).2.2 with hTdef
      simp only [List.nil_append]
      refine ⟨?_, ?_, ?_⟩
      · simp only [List.singleton_append, List.map_cons, List.length_cons]
        rw [List.take_succ_cons]
        rw [ihk]
      · rw [List.singleton_append]
        rw [List.chain'_cons']
        refine ⟨?_, ihc⟩
        intro b hb
        cases hT : T with
        | nil => rw [hT] at hb; cases hb
        | cons t0 T' =>
          rw [hT] at hb
          simp only [List.head?_cons, Option.mem_some_iff] at hb
          have h0 := ihx 0 t0 (by rw [hT]; simp)
          rw [← hb]
          have h2 : i + 1 ≤ t0.2 := h0.1
          omega
      · intro k kc hk
        rw [List.singleton_append] at hk
        cases k with
        | zero =>
          rw [List.getElem?_cons_zero] at hk
          injection hk with hk
          subst hk
          refine ⟨hni, his, hfreeU, ?_⟩
          intro s hs1 hs2
          exact Or.inl (hminU s hs1 hs2)
        | succ k =>
          rw [List.getElem?_cons_succ] at hk
          obtain ⟨hb1, hb2, hb3, hb4⟩ := ihx k kc hk
          refine ⟨by omega, hb2, hb3, ?_⟩
          intro s hs1 hs2
          by_cases hsi : s < i
          · exact Or.inl (hminU s hs1 hsi)
          · by_cases hsei : s = i
            · right
              refine ⟨0, by omega, ?_⟩
              rw [List.singleton_append, List.getElem?_cons_zero]
              simp [hsei]
            · have hs3 : i + 1 ≤ s := by omega
              rcases hb4 s hs3 hs2 with h1 | ⟨j, hjk, hjeq⟩
              · exact Or.inl h1
              · right
                refine ⟨j + 1, by omega, ?_⟩
                rw [List.singleton_append, List.getElem?_cons_succ]
                exact hjeq

lemma find?_congr_mem {α : Type} {p q : α → Bool} :
    ∀ l : List α, (∀ a ∈ l, p a = q a) → l.find? p = l.find? q := by
  intro l
  induction l with
  | nil => intro _; rfl
  | cons a t ih =>
    intro h
    rw [List.find?_cons, List.find?_cons, h a (List.mem_cons_self a t)]
    cases hqa : q a with
    | true => rfl
    | false => exact ih (fun x hx => h x (List.mem_cons_of_mem a hx))

lemma autoAssignLoop_dry_eq_exec (cfg : Config) (hbase : cfg.ipRange.base.count '.' = 2) :
    ∀ (repos : List (Str × Str)) (used0 extra : List Str) (nextIP : Int) (stD stE : MState),
      0 ≤ nextIP →
      (∀ ip' ∈ usedIPsOf stE.assignments,
        ip' ∈ used0 ∨ ∃ j, 0 ≤ j ∧ j < nextIP ∧ ip' = fmtIP cfg.ipRange.base j) →
      (∀ x ∈ extra, ∃ j, 0 ≤ j ∧ j < nextIP ∧ x = fmtIP cfg.ipRange.base j) →
      ((autoAssignLoop cfg repos (used0 ++ extra) nextIP stD false []).2.2
          = (autoAssignLoop cfg repos used0 nextIP stE true []).2.2)
      ∧ ((autoAssignLoop cfg repos (used0 ++ extra) nextIP stD false []).1
          = (autoAssignLoop cfg repos used0 nextIP stE true []).1) := by
  intro repos
  induction repos with
  | nil =>
    intro used0 extra nextIP stD stE hn0 hst hex
    rw [autoAssignLoop_nil, autoAssignLoop_nil]
    exact ⟨rfl, rfl⟩
  | cons r rest ih =>
    intro used0 extra nextIP stD stE hn0 hst hex
    obtain ⟨org, name⟩ := r
    have hpred : ∀ i ∈ intRange nextIP cfg.ipRange.stop,
        (!(used0 ++ extra).contains (fmtIP cfg.ipRange.base i))
          = (!used0.contains (fmtIP cfg.ipRange.base i)) := by
      intro i hi
      have hi1 : nextIP ≤ i := (mem_intRange.mp hi).1
      have hnx : fmtIP cfg.ipRange.base i ∉ extra := by
        intro hmem
        obtain ⟨j, hj0, hjlt, hjeq⟩ := hex _ hmem
        have := fmtIP_inj (le_trans hn0 hi1) hj0 hjeq
        omega
      by_cases hu : fmtIP cfg.ipRange.base i ∈ used0
      · have h1 : (used0 ++ extra).contains (fmtIP cfg.ipRange.base i) = true :=
          List.elem_iff.mpr (List.mem_append_left extra hu)
        have h2 : used0.contains (fmtIP cfg.ipRange.base i) = true :=
          List.elem_iff.mpr hu
        rw [h1, h2]
      · have h1 : (used0 ++ extra).contains (fmtIP cfg.ipRange.base i) = false := by
          cases hc : (used0 ++ extra).contains (fmtIP cfg.ipRange.base i) with
          | false => rfl
          | true =>
            have := List.elem_iff.mp hc
            rw [List.mem_append] at this
            rcases this with h | h
            · exact absurd h hu
            · exact absurd h hnx
        have h2 : used0.contains (fmtIP cfg.ipRange.base i) = false := by
          cases hc : used0.contains (fmtIP cfg.ipRange.base i) with
          | false => rfl
          | true => exact absurd (List.elem_iff.mp hc) hu
        rw [h1, h2]
    have hfcongr : (intRange nextIP cfg.ipRange.stop).find?
          (fun i => !(used0 ++ extra).contains (fmtIP cfg.ipRange.base i))
        = (intRange nextIP cfg.ipRange.stop).find?
          (fun i => !used0.contains (fmtIP cfg.ipRange.base i)) :=
      find?_congr_mem _ hpred
    cases hfindE : (intRange nextIP cfg.ipRange.stop).find?
        (fun i => !used0.contains (fmtIP cfg.ipRange.base i)) with
    | none =>
      have hfindD := hfcongr.trans hfindE
      rw [autoAssignLoop_cons_none hfindD, autoAssignLoop_cons_none hfindE]
      exact ⟨rfl, rfl⟩
    | some i =>
      have hfindD := hfcongr.trans hfindE
      obtain ⟨hni, his, hpi, hmin⟩ := find?_intRange_some hfindE
      have hi0 : 0 ≤ i := le_trans hn0 hni
      have hfreeU : fmtIP cfg.ipRange.base i ∉ used0 := by
        intro hmem
        rw [Bool.not_eq_true'] at hpi
        have hc : used0.contains (fmtIP cfg.ipRange.base i) = true :=
          List.elem_iff.mpr hmem
        rw [hc] at hpi
        cases hpi
      have hfree : fmtIP cfg.ipRange.base i ∉ usedIPsOf stE.assignments := by
        intro hmem
        rcases hst _ hmem with h1 | ⟨j, hj0, hjlt, hjeq⟩
        · exact hfreeU h1
        · have := fmtIP_inj hi0 hj0 hjeq
          omega
      have hassign := assign_free_ip cfg stE org name hbase hi0 hfree
      rw [autoAssignLoop_cons_exec_ok hfindE hassign]
      rw [autoAssignLoop_cons_dry hfindD]
      set stE' := updateEnvFile cfg
          (saveState
            ⟨mapSet stE.assignments (org ++ '/' :: name) (fmtIP cfg.ipRange.base i),
             stE.ledgerFile, stE.envFiles⟩)
          org name (fmtIP cfg.ipRange.base i) with hstE'def
      have hstE'assign : stE'.assignments
          = mapSet stE.assignments (org ++ '/' :: name) (fmtIP cfg.ipRange.base i) := rfl
      have hinv' : ∀ ip' ∈ usedIPsOf stE'.assignments,
          ip' ∈ used0 ∨ ∃ j, 0 ≤ j ∧ j < i + 1 ∧ ip' = fmtIP cfg.ipRange.base j := by
        intro ip' hip'
        rw [hstE'assign] at hip'
        rcases usedIPsOf_mapSet_sub hip' with h1 | h1
        · rcases hst _ h1 with h2 | ⟨j, hj0, hjlt, hjeq⟩
          · exact Or.inl h2
          · exact Or.inr ⟨j, hj0, by omega, hjeq⟩
        · exact Or.inr ⟨i, hi0, by omega, h1⟩
      have hex' : ∀ x ∈ extra ++ [fmtIP cfg.ipRange.base i],
          ∃ j, 0 ≤ j ∧ j < i + 1 ∧ x = fmtIP cfg.ipRange.base j := by
        intro x hx
        rw [List.mem_append] at hx
        rcases hx with hx | hx
        · obtain ⟨j, hj0, hjlt, hjeq⟩ := hex _ hx
          exact ⟨j, hj0, by omega, hjeq⟩
        · rw [List.mem_singleton] at hx
          exact ⟨i, hi0, by omega, hx⟩
      have happ : used0 ++ extra ++ [fmtIP cfg.ipRange.base i]
          = used0 ++ (extra ++ [fmtIP cfg.ipRange.base i]) := List.append_assoc _ _ _
      rw [happ]
      obtain ⟨ihtr, iherr⟩ := ih used0 (extra ++ [fmtIP cfg.ipRange.base i]) (i + 1) stD stE'
        (by omega) hinv' hex'
      rw [autoAssignLoop_trace_append cfg rest (used0 ++ (extra ++ [fmtIP cfg.ipRange.base i]))
            (i + 1) stD false ([] ++ [(org ++ '/' :: name, i)]),
          autoAssignLoop_trace_append cfg rest used0 (i + 1) stE' true
            ([] ++ [(org ++ '/' :: name, i)])]
      constructor
      · simp only []
        rw [ihtr]
      · simp only []
        rw [iherr]

/-- Claim C4: for every initial ledger and list of unassigned repositories
(under a well-formed config base and a non-negative range start), the
allocation sequence computed by dry-run autoAssign is identical to the
sequence execute-mode commits from the same starting state. -/
theorem autoAssign_dry_matches_exec (cfg : Config) (st : MState) (repos : List (Str × Str))
    (hbase : cfg.ipRange.base.count '.' = 2) (hstart : 0 ≤ cfg.ipRange.start) :
    (autoAssign cfg st repos false).2.2 = (autoAssign cfg st repos true).2.2 := by
  unfold autoAssign
  have h := (autoAssignLoop_dry_eq_exec cfg hbase repos (usedIPsOf st.assignments) []
    cfg.ipRange.start st st hstart
    (fun ip' h1 => Or.inl h1)
    (fun x hx => absurd hx (List.not_mem_nil x))).1
  rw [List.append_nil] at h
  exact h

/-- Claim C3: execute-mode autoAssign allocates a strictly increasing sequence
of suffixes searched from range.start, each repository in order receiving the
smallest suffix neither used at batch start nor consumed earlier in the batch;
in particular with range base 127.0.0, start 10, stop 12, an empty ledger and
repos acme/a then acme/b, it commits acme/a → 127.0.0.10, acme/b → 127.0.0.11. -/
theorem autoAssign_exec_allocation :
    (∀ (cfg : Config) (st : MState) (repos : List (Str × Str)),
      cfg.ipRange.base.count '.' = 2 → 0 ≤ cfg.ipRange.start →
      ((autoAssign cfg st repos true).2.2.map Prod.fst
          = (repos.map (fun r => r.1 ++ '/' :: r.2)).take
              (autoAssign cfg st repos true).2.2.length)
      ∧ List.Chain' (fun a b => a.2 < b.2) (autoAssign cfg st repos true).2.2
      ∧ (∀ (k : Nat) (kc : Str × Int),
          ((autoAssign cfg st repos true).2.2)[k]? = some kc →
          cfg.ipRange.start ≤ kc.2 ∧ kc.2 ≤ cfg.ipRange.stop
          ∧ fmtIP cfg.ipRange.base kc.2 ∉ usedIPsOf st.assignments
          ∧ ∀ s, cfg.ipRange.start ≤ s → s < kc.2 →
              fmtIP cfg.ipRange.base s ∈ usedIPsOf st.assignments
              ∨ ∃ j, j < k ∧
                  ((autoAssign cfg st repos true).2.2)[j]?.map Prod.snd = some s))
    ∧ (autoAssign ⟨("/b".data), ⟨("127.0.0".data), 10, 12⟩⟩ ⟨[], none, []⟩
        [(("acme".data), ("a".data)), (("acme".data), ("b".data))] true).2.1.assignments
      = [(("acme/a".data), ("127.0.0.10".data)), (("acme/b".data), ("127.0.0.11".data))]
    ∧ (autoAssign ⟨("/b".data), ⟨("127.0.0".data), 10, 12⟩⟩ ⟨[], none, []⟩
        [(("acme".data), ("a".data)), (("acme".data), ("b".data))] true).2.2
      = [(("acme/a".data), 10), (("acme/b".data), 11)] := by
  refine ⟨?_, by decide, by decide⟩
  intro cfg st repos hbase hstart
  unfold autoAssign
  exact autoAssignLoop_exec_props cfg hbase repos (usedIPsOf st.assignments)
    cfg.ipRange.start st hstart (fun ip' h1 => Or.inl h1)

theorem autoAssign_dry_matches_exec_witness :
    ((List.count '.' ("127.0.0".data) = 2) ∧ ((0 : Int) ≤ 10))
    ∧ (autoAssign ⟨("/b".data), ⟨("127.0.0".data), 10, 12⟩⟩ ⟨[], none, []⟩
        [(("acme".data), ("a".data)), (("acme".data), ("b".data))] false).2.2
      = (autoAssign ⟨("/b".data), ⟨("127.0.0".data), 10, 12⟩⟩ ⟨[], none, []⟩
        [(("acme".data), ("a".data)), (("acme".data), ("b".data))] true).2.2 :=
  ⟨⟨by decide, by decide⟩, autoAssign_dry_matches_exec _ _ _ (by decide) (by decide)⟩

theorem autoAssign_exec_allocation_witness :
    ((List.count '.' ("127.0.0".data) = 2) ∧ ((0 : Int) ≤ 10))
    ∧ (((autoAssign ⟨("/b".data), ⟨("127.0.0".data), 10, 12⟩⟩ ⟨[], none, []⟩
          [(("acme".data), ("a".data)), (("acme".data), ("b".data))] true).2.2.map Prod.fst
        = (([(("acme".data), ("a".data)), (("acme".data), ("b".data))] :
            List (Str × Str)).map (fun r => r.1 ++ '/' :: r.2)).take
            (autoAssign ⟨("/b".data), ⟨("127.0.0".data), 10, 12⟩⟩ ⟨[], none, []⟩
              [(("acme".data), ("a".data)), (("acme".data), ("b".data))] true).2.2.length)
      ∧ List.Chain' (fun a b => a.2 < b.2)
          (autoAssign ⟨("/b".data), ⟨("127.0.0".data), 10, 12⟩⟩ ⟨[], none, []⟩
            [(("acme".data), ("a".data)), (("acme".data), ("b".data))] true).2.2
      ∧ (∀ (k : Nat) (kc : Str × Int),
          ((autoAssign ⟨("/b".data), ⟨("127.0.0".data), 10, 12⟩⟩ ⟨[], none, []⟩
            [(("acme".data), ("a".data)), (("acme".data), ("b".data))] true).2.2)[k]?
            = some kc →
          (10 : Int) ≤ kc.2 ∧ kc.2 ≤ 12
          ∧ fmtIP ("127.0.0".data) kc.2 ∉ usedIPsOf ([] : List (Str × Str))
          ∧ ∀ s, (10 : Int) ≤ s → s < kc.2 →
              fmtIP ("127.0.0".data) s ∈ usedIPsOf ([] : List (Str × Str))
              ∨ ∃ j, j < k ∧
                  ((autoAssign ⟨("/b".data), ⟨("127.0.0".data), 10, 12⟩⟩ ⟨[], none, []⟩
                    [(("acme".data), ("a".data)), (("acme".data), ("b".data))]
                    true).2.2)[j]?.map Prod.snd = some s)) :=
  ⟨⟨by decide, by decide⟩,
    autoAssign_exec_allocation.1 _ _ _ (by decide) (by decide)⟩

lemma dropWhile_head_false {p : Char → Bool} :
    ∀ {l : Str} {c : Char} {s : Str}, l.dropWhile p = c :: s → p c = false := by
  intro l
  induction l with
  | nil => intro c s h; cases h
  | cons a t ih =>
    intro c s h
    rw [List.dropWhile_cons] at h
    by_cases hp : p a = true
    · rw [if_pos hp] at h
      exact ih h
    · rw [if_neg hp] at h
      injection h with h1 h2
      rw [← h1]
      exact Bool.not_eq_true _ ▸ hp

lemma trim_head_not_space {l : Str} {c : Char} {s : Str}
    (h : trim l = c :: s) : isSpace c = false := by
  unfold trim at h
  have hpre : ((l.dropWhile isSpace).reverse.dropWhile isSpace).reverse
      <+: l.dropWhile isSpace := by
    have h1 : (l.dropWhile isSpace).reverse.dropWhile isSpace
        <:+ (l.dropWhile isSpace).reverse := List.dropWhile_suffix isSpace
    have h2 := List.reverse_prefix.mpr h1
    rwa [List.reverse_reverse] at h2
  rw [h] at hpre
  obtain ⟨t, ht⟩ := hpre
  rw [List.cons_append] at ht
  exact dropWhile_head_false ht.symm

lemma trim_eq_of_ends {l : Str}
    (hh : ∀ c, l.head? = some c → isSpace c = false)
    (hl : ∀ c, l.getLast? = some c → isSpace c = false) : trim l = l := by
  unfold trim
  have h1 : l.dropWhile isSpace = l := by
    cases l with
    | nil => rfl
    | cons c s =>
      rw [List.dropWhile_cons, if_neg (by rw [hh c rfl]; simp)]
  rw [h1]
  have h2 : l.reverse.dropWhile isSpace = l.reverse := by
    cases hrev : l.reverse with
    | nil => rfl
    | cons c s =>
      have hlast : l.getLast? = some c := by
        rw [← List.head?_reverse, hrev]
        rfl
      rw [List.dropWhile_cons, if_neg (by rw [hl c hlast]; simp)]
  rw [h2, List.reverse_reverse]

lemma splitOnChar_no_sep {c : Char} : ∀ {s : Str}, c ∉ s → splitOnChar c s = [s] := by
  intro s
  induction s with
  | nil => intro _; rfl
  | cons a t ih =>
    intro h
    have ha : ¬ a = c := fun hc => h (hc ▸ List.mem_cons_self a t)
    have ht : c ∉ t := fun hc => h (List.mem_cons_of_mem a hc)
    unfold splitOnChar
    rw [if_neg ha, ih ht]

lemma splitOnChar_append_sep {c : Char} : ∀ {l s : Str}, c ∉ l →
    splitOnChar c (l ++ c :: s) = l :: splitOnChar c s := by
  intro l
  induction l with
  | nil =>
    intro s _
    show splitOnChar c (c :: s) = [] :: splitOnChar c s
    conv_lhs => unfold splitOnChar
    rw [if_pos rfl]
  | cons a t ih =>
    intro s h
    have ha : ¬ a = c := fun hc => h (hc ▸ List.mem_cons_self a t)
    have ht : c ∉ t := fun hc => h (List.mem_cons_of_mem a hc)
    show splitOnChar c (a :: (t ++ c :: s)) = (a :: t) :: splitOnChar c s
    conv_lhs => unfold splitOnChar
    rw [if_neg ha, ih ht]

lemma splitOnChar_two {o n : Str} (ho : '/' ∉ o) (hn : '/' ∉ n) :
    splitOnChar '/' (o ++ '/' :: n) = [o, n] := by
  rw [splitOnChar_append_sep ho, splitOnChar_no_sep hn]

lemma splitOnChar_joinNL_sepfree :
    ∀ (ls : List Str), ls ≠ [] → (∀ l ∈ ls, '\n' ∉ l) →
      splitOnChar '\n' (joinNL ls) = ls := by
  intro ls
  induction ls with
  | nil => intro h _; exact absurd rfl h
  | cons l rest ih =>
    intro _ hfree
    cases rest with
    | nil =>
      show splitOnChar '\n' (joinNL [l]) = [l]
      unfold joinNL
      exact splitOnChar_no_sep (hfree l (List.mem_cons_self l []))
    | cons l2 rest2 =>
      show splitOnChar '\n' (joinNL (l :: l2 :: rest2)) = l :: l2 :: rest2
      unfold joinNL
      rw [splitOnChar_append_sep (hfree l (List.mem_cons_self l _))]
      exact congrArg (l :: ·) (ih (by simp) (fun x hx => hfree x (List.mem_cons_of_mem l hx)))

lemma fieldsAux_no_space {tok : Str} (hs : ∀ c ∈ tok, isSpace c = false) :
    ∀ acc : Str, acc.reverse ++ tok ≠ [] → fieldsAux tok acc = [acc.reverse ++ tok] := by
  induction tok with
  | nil =>
    intro acc hne
    rw [List.append_nil] at hne ⊢
    unfold fieldsAux
    rw [if_neg (by intro hc; rw [hc] at hne; exact hne rfl)]
  | cons c tok' ih =>
    intro acc hne
    have hc : isSpace c = false := hs c (List.mem_cons_self c tok')
    unfold fieldsAux
    rw [if_neg (by rw [hc]; simp)]
    rw [ih (fun x hx => hs x (List.mem_cons_of_mem c hx)) (c :: acc) (by simp)]
    rw [List.reverse_cons, List.append_assoc, List.singleton_append]

lemma fieldsAux_token {tok : Str} (rest : Str) (hs : ∀ c ∈ tok, isSpace c = false) :
    ∀ acc : Str, acc.reverse ++ tok ≠ [] →
      fieldsAux (tok ++ ' ' :: rest) acc = (acc.reverse ++ tok) :: fieldsAux rest [] := by
  induction tok with
  | nil =>
    intro acc hne
    rw [List.append_nil] at hne ⊢
    show fieldsAux (' ' :: rest) acc = acc.reverse :: fieldsAux rest []
    conv_lhs => unfold fieldsAux
    rw [if_pos (show isSpace ' ' = true by rfl)]
    rw [if_neg (by intro hc; rw [hc] at hne; exact hne rfl)]
  | cons c tok' ih =>
    intro acc hne
    have hc : isSpace c = false := hs c (List.mem_cons_self c tok')
    show fieldsAux (c :: (tok' ++ ' ' :: rest)) acc
        = (acc.reverse ++ c :: tok') :: fieldsAux rest []
    conv_lhs => unfold fieldsAux
    rw [if_neg (by rw [hc]; simp)]
    rw [ih (fun x hx => hs x (List.mem_cons_of_mem c hx)) (c :: acc) (by simp)]
    rw [List.reverse_cons, List.append_assoc, List.singleton_append]

lemma fields_render {o n v : Str} (ho : o ≠ []) (hn : n ≠ []) (hv : v ≠ [])
    (hso : ∀ c ∈ o, isSpace c = false) (hsn : ∀ c ∈ n, isSpace c = false)
    (hsv : ∀ c ∈ v, isSpace c = false) :
    fields (o ++ ' ' :: (n ++ ' ' :: v)) = [o, n, v] := by
  unfold fields
  rw [fieldsAux_token (n ++ ' ' :: v) hso [] (by simpa using ho)]
  rw [fieldsAux_token v hsn [] (by simpa using hn)]
  rw [fieldsAux_no_space hsv [] (by simpa using hv)]
  simp

lemma fieldsAux_mem_wf :
    ∀ (s acc : Str), (∀ c ∈ acc, isSpace c = false) →
      ∀ tok ∈ fieldsAux s acc, tok ≠ [] ∧ ∀ c ∈ tok, isSpace c = false := by
  intro s
  induction s with
  | nil =>
    intro acc hacc tok htok
    unfold fieldsAux at htok
    by_cases ha : acc = []
    · rw [if_pos ha] at htok
      cases htok
    · rw [if_neg ha] at htok
      rw [List.mem_singleton] at htok
      subst htok
      refine ⟨by simpa using ha, ?_⟩
      intro c hc
      exact hacc c (List.mem_reverse.mp hc)
  | cons a s' ih =>
    intro acc hacc tok htok
    unfold fieldsAux at htok
    by_cases hsp : isSpace a = true
    · rw [if_pos hsp] at htok
      by_cases ha : acc = []
      · rw [if_pos ha] at htok
        exact ih [] (by intro c hc; cases hc) tok htok
      · rw [if_neg ha] at htok
        rcases List.mem_cons.mp htok with h | h
        · subst h
          refine ⟨by simpa using ha, ?_⟩
          intro c hc
          exact hacc c (List.mem_reverse.mp hc)
        · exact ih [] (by intro c hc; cases hc) tok h
    · rw [if_neg hsp] at htok
      refine ih (a :: acc) ?_ tok htok
      intro c hc
      rcases List.mem_cons.mp hc with h | h
      · subst h
        exact Bool.not_eq_true _ ▸ hsp
      · exact hacc c h

lemma fieldsAux_first_token :
    ∀ (s acc : Str) (tok : Str) (rest : List Str),
      fieldsAux s acc = tok :: rest → acc ≠ [] → ∃ u, tok = acc.reverse ++ u := by
  intro s
  induction s with
  | nil =>
    intro acc tok rest h hacc
    unfold fieldsAux at h
    rw [if_neg hacc] at h
    injection h with h1 _
    exact ⟨[], by rw [← h1, List.append_nil]⟩
  | cons a s' ih =>
    intro acc tok rest h hacc
    unfold fieldsAux at h
    by_cases hsp : isSpace a = true
    · rw [if_pos hsp, if_neg hacc] at h
      injection h with h1 _
      exact ⟨[], by rw [← h1, List.append_nil]⟩
    · rw [if_neg hsp] at h
      obtain ⟨u, hu⟩ := ih (a :: acc) tok rest h (by simp)
      rw [List.reverse_cons, List.append_assoc] at hu
      exact ⟨a :: u, hu⟩

lemma fields_head_char {t' : Str} {c : Char} {tok : Str} {rest : List Str}
    (hsp : isSpace c = false) (h : fields (c :: t') = tok :: rest) :
    ∃ u, tok = c :: u := by
  unfold fields at h
  unfold fieldsAux at h
  rw [if_neg (by rw [hsp]; simp)] at h
  obtain ⟨u, hu⟩ := fieldsAux_first_token t' [c] tok rest h (by simp)
  exact ⟨u, by simpa using hu⟩

lemma getLast?_append_right {l l' : Str} (h : l' ≠ []) :
    (l ++ l').getLast? = l'.getLast? := by
  rw [List.getLast?_append]
  cases hl : l'.getLast? with
  | none => exact absurd (List.getLast?_eq_none_iff.mp hl) h
  | some c => rfl

lemma space_ne_nl {c : Char} (h : isSpace c = false) : c ≠ '\n' := by
  intro hc
  rw [hc] at h
  cases h

lemma parseLine_render {e : Str × Str} (hwf : entryWF e) :
    ∃ line, renderEntry e = some line ∧ parseLine line = some e
      ∧ line ≠ [] ∧ ∀ c ∈ line, c ≠ '\n' := by
  obtain ⟨o, n, hk, ho, hn, hso, hsn, hslo, hsln, hhead, hv, hsv⟩ := hwf
  have hshape : o ++ ' ' :: n ++ ' ' :: e.2 = o ++ ' ' :: (n ++ ' ' :: e.2) := by
    rw [List.append_assoc]
    rfl
  refine ⟨o ++ ' ' :: n ++ ' ' :: e.2, ?_, ?_, ?_, ?_⟩
  · unfold renderEntry
    rw [hk, splitOnChar_two hslo hsln]
  · rw [hshape]
    have htrim : trim (o ++ ' ' :: (n ++ ' ' :: e.2)) = o ++ ' ' :: (n ++ ' ' :: e.2) := by
      apply trim_eq_of_ends
      · intro c hc
        cases o with
        | nil => exact absurd rfl ho
        | cons o0 o' =>
          rw [List.cons_append, List.head?_cons] at hc
          injection hc with hc
          rw [← hc]
          exact hso o0 (List.mem_cons_self o0 o')
      · intro c hc
        rw [getLast?_append_right (by simp)] at hc
        have h2 : (n ++ ' ' :: e.2).getLast? = some c := by
          have h3 : (' ' :: (n ++ ' ' :: e.2)) = [' '] ++ (n ++ ' ' :: e.2) := rfl
          rw [h3, getLast?_append_right (by simp [List.append_eq_nil])] at hc
          exact hc
        rw [getLast?_append_right (by simp)] at h2
        have h4 : (' ' :: e.2) = [' '] ++ e.2 := rfl
        rw [h4, getLast?_append_right hv] at h2
        exact hsv c (List.mem_of_mem_getLast? h2)
    unfold parseLine
    rw [htrim]
    have hnl : o ++ ' ' :: (n ++ ' ' :: e.2) ≠ [] := by
      intro hcon
      rw [List.append_eq_nil] at hcon
      exact List.cons_ne_nil _ _ hcon.2
    rw [if_neg hnl]
    have hsw : startsWith (o ++ ' ' :: (n ++ ' ' :: e.2)) ['#'] = false := by
      cases o with
      | nil => exact absurd rfl ho
      | cons o0 o' =>
        have h0 : o0 ≠ '#' := by
          intro hcon
          exact hhead (by rw [List.head?_cons, hcon])
        show List.isPrefixOf ['#'] (o0 :: (o' ++ ' ' :: (n ++ ' ' :: e.2))) = false
        simp [List.isPrefixOf]
        intro hcon
        exact absurd hcon.symm h0
    rw [if_neg (by rw [hsw]; simp)]
    rw [fields_render ho hn hv hso hsn hsv]
    show some (o ++ '/' :: n, e.2) = some e
    rw [← hk]
  · rw [hshape]
    intro hcon
    rw [List.append_eq_nil] at hcon
    exact List.cons_ne_nil _ _ hcon.2
  · rw [hshape]
    intro c hc
    rw [List.mem_append] at hc
    rcases hc with hc | hc
    · exact space_ne_nl (hso c hc)
    · rcases List.mem_cons.mp hc with hc | hc
      · rw [hc]; decide
      · rw [List.mem_append] at hc
        rcases hc with hc | hc
        · exact space_ne_nl (hsn c hc)
        · rcases List.mem_cons.mp hc with hc | hc
          · rw [hc]; decide
          · exact space_ne_nl (hsv c hc)

lemma parseLine_okLine_wf {line : Str} {e : Str × Str} (hok : okLineB line = true)
    (hp : parseLine line = some e) : entryWF e := by
  unfold parseLine at hp
  by_cases h1 : trim line = []
  · rw [if_pos h1] at hp
    cases hp
  rw [if_neg h1] at hp
  by_cases h2 : startsWith (trim line) ['#'] = true
  · rw [if_pos h2] at hp
    cases hp
  rw [if_neg h2] at hp
  unfold okLineB at hok
  rw [if_neg h1, if_neg h2] at hok
  cases heq : fields (trim line) with
  | nil => rw [heq] at hp; cases hp
  | cons o fs1 =>
    cases fs1 with
    | nil => rw [heq] at hp; cases hp
    | cons n fs2 =>
      cases fs2 with
      | nil => rw [heq] at hp; cases hp
      | cons i fs3 =>
        cases fs3 with
        | cons x fs4 => rw [heq] at hp; cases hp
        | nil =>
          rw [heq] at hp hok
          simp only [Option.some.injEq] at hp
          simp only [Bool.and_eq_true, Bool.not_eq_true'] at hok
          have hfa : fieldsAux (trim line) [] = [o, n, i] := heq
          have hmo : o ∈ fieldsAux (trim line) [] := by
            rw [hfa]
            exact List.mem_cons_self _ _
          have hmn : n ∈ fieldsAux (trim line) [] := by
            rw [hfa]
            exact List.mem_cons_of_mem _ (List.mem_cons_self _ _)
          have hmi : i ∈ fieldsAux (trim line) [] := by
            rw [hfa]
            exact List.mem_cons_of_mem _ (List.mem_cons_of_mem _ (List.mem_cons_self _ _))
          have hwfo := fieldsAux_mem_wf (trim line) [] (by intro c hc; cases hc) o hmo
          have hwfn := fieldsAux_mem_wf (trim line) [] (by intro c hc; cases hc) n hmn
          have hwfi := fieldsAux_mem_wf (trim line) [] (by intro c hc; cases hc) i hmi
          have hohead : o.head? ≠ some '#' := by
            cases ht : trim line with
            | nil => exact absurd ht h1
            | cons c t' =>
              have hsp : isSpace c = false := trim_head_not_space ht
              rw [ht] at heq
              obtain ⟨u, hu⟩ := fields_head_char hsp heq
              have hc : c ≠ '#' := by
                intro hcon
                apply h2
                rw [ht, hcon]
                show List.isPrefixOf ['#'] ('#' :: t') = true
                simp [List.isPrefixOf]
              rw [hu, List.head?_cons]
              intro hcon
              injection hcon with hcon
              exact hc hcon
          have hso : '/' ∉ o := by
            intro hc
            have helem : List.elem '/' o = true := List.elem_iff.mpr hc
            have hfalse : List.elem '/' o = false := hok.1
            rw [helem] at hfalse
            cases hfalse
          have hsn : '/' ∉ n := by
            intro hc
            have helem : List.elem '/' n = true := List.elem_iff.mpr hc
            have hfalse : List.elem '/' n = false := hok.2
            rw [helem] at hfalse
            cases hfalse
          rw [← hp]
          exact ⟨o, n, rfl, hwfo.1, hwfn.1, hwfo.2, hwfn.2, hso, hsn, hohead,
            hwfi.1, hwfi.2⟩

lemma mapSet_mWF {m : List (Str × Str)} {k v : Str} (h : mWF m) (he : entryWF (k, v)) :
    mWF (mapSet m k v) := by
  refine ⟨mapSet_nodupKeys h.1, ?_⟩
  intro e hemem
  unfold mapSet at hemem
  by_cases hany : m.any (fun x => x.1 = k) = true
  · rw [if_pos hany] at hemem
    rw [List.mem_map] at hemem
    obtain ⟨x, hx, hxe⟩ := hemem
    by_cases hxk : x.1 = k
    · rw [if_pos hxk] at hxe
      rw [← hxe]
      exact he
    · rw [if_neg hxk] at hxe
      rw [← hxe]
      exact h.2 x hx
  · rw [if_neg hany] at hemem
    rw [List.mem_append] at hemem
    rcases hemem with hm | hm
    · exact h.2 e hm
    · rw [List.mem_singleton] at hm
      rw [hm]
      exact he

lemma loadLines_go_wf :
    ∀ (lines : List Str) (acc : List (Str × Str)), mWF acc →
      (∀ l ∈ lines, okLineB l = true) →
      mWF (lines.foldl (fun m l =>
        match parseLine l with
        | some (k, v) => mapSet m k v
        | none => m) acc) := by
  intro lines
  induction lines with
  | nil =>
    intro acc hacc _
    exact hacc
  | cons l rest ih =>
    intro acc hacc hok
    rw [List.foldl_cons]
    cases hp : parseLine l with
    | none =>
      simp only [hp]
      exact ih acc hacc (fun x hx => hok x (List.mem_cons_of_mem l hx))
    | some e =>
      simp only [hp]
      have hwf := parseLine_okLine_wf (hok l (List.mem_cons_self l rest)) hp
      cases e with
      | mk k v =>
        exact ih (mapSet acc k v) (mapSet_mWF hacc hwf)
          (fun x hx => hok x (List.mem_cons_of_mem l hx))

lemma loadLines_wf {lines : List Str} (hok : ∀ l ∈ lines, okLineB l = true) :
    mWF (loadLines lines) := by
  unfold loadLines
  exact loadLines_go_wf lines [] ⟨List.nodup_nil, by intro e he; cases he⟩ hok

lemma loadLines_eq_foldl_filterMap :
    ∀ (lines : List Str) (acc : List (Str × Str)),
      lines.foldl (fun m l =>
        match parseLine l with
        | some (k, v) => mapSet m k v
        | none => m) acc
      = (lines.filterMap parseLine).foldl (fun m e => mapSet m e.1 e.2) acc := by
  intro lines
  induction lines with
  | nil => intro acc; rfl
  | cons l rest ih =>
    intro acc
    rw [List.foldl_cons, List.filterMap_cons]
    cases hp : parseLine l with
    | none =>
      simp only [hp]
      exact ih acc
    | some e =>
      simp only [hp]
      rw [List.foldl_cons]
      cases e with
      | mk k v => exact ih (mapSet acc k v)

lemma foldl_mapSet_fresh :
    ∀ (es acc : List (Str × Str)),
      ((acc.map Prod.fst ++ es.map Prod.fst).Nodup) →
      es.foldl (fun m e => mapSet m e.1 e.2) acc = acc ++ es := by
  intro es
  induction es with
  | nil =>
    intro acc _
    rw [List.foldl_nil, List.append_nil]
  | cons e rest ih =>
    intro acc h
    rw [List.foldl_cons]
    have hdis := (List.nodup_append.mp h).2.2
    have hfresh : ¬ acc.any (fun x => x.1 = e.1) = true := by
      intro hc
      rw [List.any_eq_true] at hc
      obtain ⟨x, hx, hpx⟩ := hc
      simp only [decide_eq_true_eq] at hpx
      exact hdis (hpx ▸ List.mem_map_of_mem Prod.fst hx)
        (by rw [List.map_cons]; exact List.mem_cons_self _ _)
    have hstep : mapSet acc e.1 e.2 = acc ++ [e] := by
      unfold mapSet
      rw [if_neg hfresh]
    rw [hstep, ih (acc ++ [e]) ?_]
    · rw [List.append_assoc]
      rfl
    · rw [List.map_append]
      rw [List.append_assoc]
      rw [List.map_cons] at h
      exact h

lemma filterMap_render_parse :
    ∀ (m : List (Str × Str)), (∀ e ∈ m, entryWF e) →
      (m.filterMap renderEntry).filterMap parseLine = m := by
  intro m
  induction m with
  | nil => intro _; rfl
  | cons e rest ih =>
    intro h
    obtain ⟨line, hre, hpl, _, _⟩ := parseLine_render (h e (List.mem_cons_self e rest))
    rw [List.filterMap_cons, hre, List.filterMap_cons, hpl]
    exact congrArg (e :: ·) (ih (fun x hx => h x (List.mem_cons_of_mem e hx)))

lemma saveLoad_wf {m : List (Str × Str)} (h : mWF m) :
    List.Perm (loadContent (saveContent m)) m := by
  cases m with
  | nil =>
    show List.Perm (loadContent (saveContent [])) []
    have : loadContent (saveContent []) = [] := by decide
    rw [this]
  | cons e rest =>
    obtain ⟨line, hre, _, _, _⟩ := parseLine_render (h.2 e (List.mem_cons_self e rest))
    have hlines : (e :: rest).filterMap renderEntry ≠ [] := by
      rw [List.filterMap_cons, hre]
      exact List.cons_ne_nil _ _
    have hfree : ∀ l ∈ (e :: rest).filterMap renderEntry, '\n' ∉ l := by
      intro l hl
      rw [List.mem_filterMap] at hl
      obtain ⟨x, hx, hrx⟩ := hl
      obtain ⟨line', hre', _, _, hnl'⟩ := parseLine_render (h.2 x hx)
      rw [hre'] at hrx
      injection hrx with hll
      intro hc
      exact hnl' '\n' (hll ▸ hc) rfl
    have hSperm : List.Perm (sortStrs ((e :: rest).filterMap renderEntry))
        ((e :: rest).filterMap renderEntry) := sortStrs_perm _
    have hSne : sortStrs ((e :: rest).filterMap renderEntry) ≠ [] := by
      intro hc
      have hlen := hSperm.length_eq
      rw [hc] at hlen
      exact hlines (List.length_eq_zero.mp hlen.symm)
    have hSfree : ∀ l ∈ sortStrs ((e :: rest).filterMap renderEntry), '\n' ∉ l := by
      intro l hl
      exact hfree l (hSperm.mem_iff.mp hl)
    have hsplit : splitOnChar '\n' (saveContent (e :: rest))
        = sortStrs ((e :: rest).filterMap renderEntry) := by
      unfold saveContent saveLines
      exact splitOnChar_joinNL_sepfree _ hSne hSfree
    have hload : loadContent (saveContent (e :: rest))
        = ((sortStrs ((e :: rest).filterMap renderEntry)).filterMap parseLine).foldl
            (fun m e => mapSet m e.1 e.2) [] := by
      unfold loadContent loadLines
      rw [hsplit]
      exact loadLines_eq_foldl_filterMap _ []
    have hesperm : List.Perm
        ((sortStrs ((e :: rest).filterMap renderEntry)).filterMap parseLine)
        (e :: rest) := by
      have h1 := hSperm.filterMap parseLine
      rw [filterMap_render_parse (e :: rest) h.2] at h1
      exact h1
    have hnd : ((([] : List (Str × Str)).map Prod.fst
        ++ ((sortStrs ((e :: rest).filterMap renderEntry)).filterMap parseLine).map
          Prod.fst)).Nodup := by
      rw [List.map_nil, List.nil_append]
      exact ((hesperm.map Prod.fst).symm).nodup h.1
    rw [hload, foldl_mapSet_fresh _ [] hnd, List.nil_append]
    exact hesperm

/-- Claim C2 (amended): for every ledger-file content each of whose lines is
blank, a comment, or has exactly three whitespace-separated fields whose org
and name tokens contain no slash, saving the loaded assignments and loading
the result yields the same key-to-IP map (the same pairs, up to the
sort-induced reordering). -/
theorem save_load_roundtrip (content : Str)
    (hok : ∀ l ∈ splitOnChar '\n' content, okLineB l = true) :
    List.Perm (loadContent (saveContent (loadContent content))) (loadContent content) :=
  saveLoad_wf (loadLines_wf hok)

/-- Witness for C2: a concrete three-line file (an entry, a comment, another
entry) whose lines satisfy the side condition; the round trip preserves the
loaded map up to permutation. -/
theorem save_load_roundtrip_witness :
    (∀ l ∈ splitOnChar '\n' (("acme app 127.0.0.10\n# note\nzeta svc 127.0.0.11").data),
      okLineB l = true)
    ∧ List.Perm
      (loadContent (saveContent (loadContent
        (("acme app 127.0.0.10\n# note\nzeta svc 127.0.0.11").data))))
      (loadContent (("acme app 127.0.0.10\n# note\nzeta svc 127.0.0.11").data)) :=
  ⟨by decide, save_load_roundtrip _ (by decide)⟩

/-- Counterexample to claim C2 as stated: the line `a/b c 127.0.0.9` loads as
the key `a/b/c`, which `saveAssignments` silently drops because it splits into
three slash-parts, so the save/load round trip loses the entry. -/
theorem claimC2_counterexample :
    loadContent (("a/b c 127.0.0.9").data)
      = [((("a/b/c").data), (("127.0.0.9").data))]
    ∧ loadContent (saveContent (loadContent (("a/b c 127.0.0.9").data))) = []
    ∧ ¬ List.Perm (loadContent (saveContent (loadContent (("a/b c 127.0.0.9").data))))
        (loadContent (("a/b c 127.0.0.9").data)) := by
  refine ⟨by decide, by decide, ?_⟩
  intro hperm
  have h1 : loadContent (saveContent (loadContent (("a/b c 127.0.0.9").data))) = [] := by
    decide
  have h2 : loadContent (("a/b c 127.0.0.9").data)
      = [((("a/b/c").data), (("127.0.0.9").data))] := by decide
  rw [h1, h2] at hperm
  exact List.cons_ne_nil _ _ hperm.nil_eq.symm
